import Mathlib

/-!
Verification of the Prime PenTrix hybrid retrieval core (brain/rag):
a shallow embedding of the BM25 lexical index (`bm25.py`), the chunking
engine (`chunker.py`) and the fusion/assembly layer (`engine.py`),
followed by theorems settling the specification claims.

Python `dict`s are modelled as insertion-ordered association lists,
`float` arithmetic as exact rationals, and `math.log` as an abstract
function parameter, since the scoring claims are identities that hold
for any interpretation of the logarithm primitive.
-/

/-- A Python `dict` with string keys: an insertion-ordered association
list.  Assignment to an existing key updates the value in place;
assignment to a new key appends at the end. -/
abbrev Dict (α : Type) : Type := List (String × α)

/-- Python `d.get(k)` / `d[k]` lookup. -/
def dget? {α : Type} : Dict α → String → Option α
  | [], _ => none
  | (k', v) :: rest, k => if k' = k then some v else dget? rest k

/-- Python `d.get(k, v₀)`. -/
def dgetD {α : Type} (d : Dict α) (k : String) (v₀ : α) : α :=
  (dget? d k).getD v₀

/-- Python `k in d`. -/
def dcontains {α : Type} (d : Dict α) (k : String) : Bool :=
  (dget? d k).isSome

/-- Python `d[k] = v`: update in place if the key exists, else append. -/
def dset {α : Type} : Dict α → String → α → Dict α
  | [], k, v => [(k, v)]
  | (k', v') :: rest, k, v =>
    if k' = k then (k, v) :: rest else (k', v') :: dset rest k v

/-- Python `del d[k]` (total: a missing key is a no-op here). -/
def derase {α : Type} : Dict α → String → Dict α
  | [], _ => []
  | (k', v') :: rest, k =>
    if k' = k then derase rest k else (k', v') :: derase rest k

/-- The keys of a dict, in insertion order. -/
def dkeys {α : Type} (d : Dict α) : List String := d.map Prod.fst

/-- Python `sum(d.values())` for an integer-valued dict. -/
def dsum (d : Dict ℕ) : ℕ := (d.map (·.2)).sum

/-- The dict has no duplicate keys (always true of real Python dicts). -/
def DictNodup {α : Type} (d : Dict α) : Prop := (dkeys d).Nodup

-- ───────────────────────── Tokenization (bm25.py `_tokenize`) ──────────

/-- ASCII word character, Python `\w` restricted to ASCII input. -/
def isWordChar (c : Char) : Bool := c.isAlphanum || c = '_'

/-- Character class `[\w\-\.]` of the token regex. -/
def isTokChar (c : Char) : Bool := isWordChar c || c = '-' || c = '.'

/-- Backtracking step of the first regex alternative
`[a-zA-Z0-9][\w\-\.]*[a-zA-Z0-9]\b`: walking the reversed run of
`[\w\-\.]` characters, find the longest prefix that ends in an
alphanumeric character followed by a word boundary.  Returns the matched
middle-plus-final part (in order) and the dropped trailing part. -/
def findTokEnd : List Char → List Char → Option (List Char × List Char)
  | [], _ => none
  | c :: rr, dropped =>
    if c.isAlphanum && (match dropped.head? with
        | none => true
        | some d => !isWordChar d) then
      some ((c :: rr).reverse, dropped)
    else findTokEnd rr (c :: dropped)

/-- Left-to-right scan of `re.findall` for the pattern
`\b[a-zA-Z0-9][\w\-\.]*[a-zA-Z0-9]\b|\b\w\b`.  `prevWord` records
whether the previous character was a word character (for `\b`).  The
fuel argument dominates the length of the remaining input, so it never
runs out when started at the input length. -/
def scanTokens : ℕ → Bool → List Char → List (List Char)
  | 0, _, _ => []
  | _ + 1, _, [] => []
  | fuel + 1, prevWord, c :: rest =>
    if isWordChar c && prevWord then
      -- no word boundary before `c`: no match can start here
      scanTokens fuel (isWordChar c) rest
    else if c.isAlphanum then
      let run := rest.takeWhile isTokChar
      let tail := rest.dropWhile isTokChar
      match findTokEnd run.reverse [] with
      | some (tok, dropped) =>
        (c :: tok) :: scanTokens fuel true (dropped ++ tail)
      | none =>
        -- first alternative failed; try `\b\w\b` on `c` alone
        if (match rest.head? with
            | none => true
            | some d => !isWordChar d) then
          [c] :: scanTokens fuel true rest
        else scanTokens fuel true rest
    else if c = '_' then
      if (match rest.head? with
          | none => true
          | some d => !isWordChar d) then
        ['_'] :: scanTokens fuel true rest
      else scanTokens fuel true rest
    else scanTokens fuel false rest

/-- Python `text.lower()` (ASCII). -/
def pyLower (s : String) : String := ⟨s.data.map Char.toLower⟩

/-- `BM25Index.STOP_WORDS`. -/
def STOP_WORDS : List String :=
  ["the", "a", "an", "and", "or", "but", "in", "on", "at", "to", "for",
   "of", "with", "by", "from", "as", "is", "was", "are", "were", "been",
   "be", "have", "has", "had", "do", "does", "did", "will", "would",
   "could", "should", "may", "might", "must", "shall", "can", "need",
   "this", "that", "these", "those", "it", "its", "they", "them",
   "their", "what", "which", "who", "whom", "when", "where", "why", "how",
   "all", "each", "every", "both", "few", "more", "most", "other",
   "some", "such", "no", "nor", "not", "only", "own", "same", "so",
   "than", "too", "very", "just", "also", "now", "here", "there",
   "about", "into", "over", "after", "below", "between", "under",
   "again", "then", "once", "during", "while", "before", "above",
   "being", "through", "further", "because", "until"]

/-- `BM25Index._tokenize`: regex word extraction over the lowercased
text, then stop-word and single-character removal. -/
def bm25Tokenize (text : String) : List String :=
  let cs := (pyLower text).data
  ((scanTokens cs.length false cs).map (fun t => (⟨t⟩ : String))).filter
    (fun t => !STOP_WORDS.contains t && t.length > 1)

-- ─────────────────────────── BM25 index state ──────────────────────────

/-- Chunk metadata carried through the index and search results
(Python passes these as string-keyed dicts; absent keys are `none`). -/
structure Meta where
  chunk_index : Option ℤ := none
  page_number : Option ℤ := none
  document_id : Option String := none
  filename : Option String := none
  original_name : Option String := none
deriving DecidableEq, Inhabited

/-- The mutable state of `BM25Index`. -/
structure BM25Index where
  k1 : ℚ := 3/2
  b : ℚ := 3/4
  doc_count : ℤ := 0
  avgdl : ℚ := 0
  doc_lengths : Dict ℕ := []
  doc_freqs : Dict ℕ := []
  inverted_index : Dict (Dict ℕ) := []
  doc_texts : Dict String := []
  doc_metadata : Dict Meta := []
deriving DecidableEq, Inhabited

/-- Python `str.strip()` whitespace set (ASCII). -/
def isPySpace (c : Char) : Bool :=
  c = ' ' || c = '\t' || c = '\n' || c = '\x0d' || c = '\x0b' || c = '\x0c'

/-- Python `str.strip()`. -/
def pyStrip (s : String) : String :=
  ⟨((s.data.dropWhile isPySpace).reverse.dropWhile isPySpace).reverse⟩

/-- `collections.Counter` over a token list: term → occurrence count,
keys in first-occurrence order. -/
def counter (tokens : List String) : Dict ℕ :=
  tokens.foldl (fun d t => dset d t (dgetD d t 0 + 1)) []

/-- `BM25Index.add_document`. -/
def BM25Index.add_document (st : BM25Index) (doc_id text : String)
    (metadata : Option Meta) : BM25Index :=
  if pyStrip text = "" then st
  else if pyStrip doc_id = "" then st
  else
    let tokens := bm25Tokenize text
    let doc_texts := dset st.doc_texts doc_id text
    let doc_metadata := dset st.doc_metadata doc_id (metadata.getD {})
    let doc_lengths := dset st.doc_lengths doc_id tokens.length
    let term_counts := counter tokens
    let inv_freqs := term_counts.foldl
      (fun (p : Dict (Dict ℕ) × Dict ℕ) tc =>
        (dset p.1 tc.1 (dset (dgetD p.1 tc.1 []) doc_id tc.2),
         dset p.2 tc.1 (dgetD p.2 tc.1 0 + 1)))
      (st.inverted_index, st.doc_freqs)
    let dc := st.doc_count + 1
    { st with
      doc_texts := doc_texts
      doc_metadata := doc_metadata
      doc_lengths := doc_lengths
      inverted_index := inv_freqs.1
      doc_freqs := inv_freqs.2
      doc_count := dc
      avgdl := (dsum doc_lengths : ℚ) / ((max dc 1 : ℤ) : ℚ) }

/-- `BM25Index.add_documents`: batch add, returning the new state and
the count, which is incremented for every entry whether or not
`add_document` skipped it. -/
def BM25Index.add_documents (st : BM25Index)
    (documents : List (String × String × Option Meta)) : BM25Index × ℕ :=
  documents.foldl
    (fun p dtm => (p.1.add_document dtm.1 dtm.2.1 dtm.2.2, p.2 + 1))
    (st, 0)

/-- Inner loop of `BM25Index.remove_document` over the document's
tokens, with the `seen_terms` set. -/
def removeTokensLoop (doc_id : String) :
    List String → List String → Dict (Dict ℕ) → Dict ℕ →
    Dict (Dict ℕ) × Dict ℕ
  | [], _, inv, freqs => (inv, freqs)
  | tok :: rest, seen, inv, freqs =>
    if seen.contains tok then removeTokensLoop doc_id rest seen inv freqs
    else
      match dget? inv tok with
      | some posting =>
        if dcontains posting doc_id then
          let posting' := derase posting doc_id
          -- `max(0, df - 1)` is ℕ subtraction here
          let freqs' := dset freqs tok (dgetD freqs tok 0 - 1)
          if posting'.isEmpty then
            removeTokensLoop doc_id rest (tok :: seen)
              (derase inv tok) (derase freqs' tok)
          else
            removeTokensLoop doc_id rest (tok :: seen)
              (dset inv tok posting') freqs'
        else removeTokensLoop doc_id rest (tok :: seen) inv freqs
      | none => removeTokensLoop doc_id rest (tok :: seen) inv freqs

/-- `BM25Index.remove_document`. -/
def BM25Index.remove_document (st : BM25Index) (doc_id : String) :
    BM25Index :=
  if dcontains st.doc_texts doc_id then
    let tokens := bm25Tokenize (dgetD st.doc_texts doc_id "")
    let inv_freqs :=
      removeTokensLoop doc_id tokens [] st.inverted_index st.doc_freqs
    let doc_texts := derase st.doc_texts doc_id
    let doc_lengths := derase st.doc_lengths doc_id
    let doc_metadata := derase st.doc_metadata doc_id
    let dc := st.doc_count - 1
    { st with
      inverted_index := inv_freqs.1
      doc_freqs := inv_freqs.2
      doc_texts := doc_texts
      doc_lengths := doc_lengths
      doc_metadata := doc_metadata
      doc_count := dc
      avgdl :=
        if dc > 0 then (dsum doc_lengths : ℚ) / ((max dc 1 : ℤ) : ℚ)
        else 0 }
  else st

/-- Stable insertion into a descending-by-key list: the new element goes
after every element whose key is ≥ its own. -/
def insertDesc {α : Type} (key : α → ℚ) (x : α) : List α → List α
  | [] => [x]
  | y :: ys =>
    if key x ≤ key y then y :: insertDesc key x ys else x :: y :: ys

/-- Python `sorted(l, key=key, reverse=True)`: a stable descending sort. -/
def sortDescBy {α : Type} (key : α → ℚ) (l : List α) : List α :=
  l.foldl (fun acc x => insertDesc key x acc) []

/-- The BM25 term-frequency normalization
`tf*(k1+1) / (tf + k1*(1 - b + b*dl/avgdl))`. -/
def tfNorm (k1 b avgdl tf dl : ℚ) : ℚ :=
  tf * (k1 + 1) / (tf + k1 * (1 - b + b * dl / avgdl))

/-- Inner posting-list loop of `BM25Index.search` for one query term. -/
def scoresForTerm (k1 b avgdl idf : ℚ) (doc_lengths : Dict ℕ)
    (posting : Dict ℕ) (sc : Dict ℚ) : Dict ℚ :=
  posting.foldl
    (fun sc2 dt =>
      dset sc2 dt.1 (dgetD sc2 dt.1 0 +
        idf * tfNorm k1 b avgdl (dt.2 : ℕ) (dgetD doc_lengths dt.1 0 : ℕ)))
    sc

/-- The IDF argument passed to `math.log` by `BM25Index.search`. -/
def idfArg (doc_count : ℤ) (df : ℚ) : ℚ :=
  ((doc_count : ℚ) - df + 1/2) / (df + 1/2) + 1

/-- The score-accumulation loop of `BM25Index.search` over the query
tokens. -/
def scoreFold (lg : ℚ → ℚ) (st : BM25Index) (toks : List String)
    (sc : Dict ℚ) : Dict ℚ :=
  toks.foldl
    (fun sc term =>
      match dget? st.inverted_index term with
      | none => sc
      | some posting =>
        let idf := lg (idfArg st.doc_count (dgetD st.doc_freqs term 0 : ℕ))
        scoresForTerm st.k1 st.b st.avgdl idf st.doc_lengths posting sc)
    sc

/-- `BM25Index.search`.  `lg` is the `math.log` primitive, kept
abstract: `search` calls it exactly where the Python code does. -/
def BM25Index.search (lg : ℚ → ℚ) (st : BM25Index) (query : String)
    (limit : ℕ) : List (String × ℚ) :=
  if st.doc_count = 0 then []
  else
    let query_tokens := bm25Tokenize query
    if query_tokens.isEmpty then []
    else
      let scores := scoreFold lg st query_tokens []
      (sortDescBy (fun x => x.2) scores).take limit

/-- `BM25Index.clear`. -/
def BM25Index.clear (st : BM25Index) : BM25Index :=
  { st with
    doc_count := 0, avgdl := 0, doc_lengths := [], doc_freqs := [],
    inverted_index := [], doc_texts := [], doc_metadata := [] }

/-- `BM25Index.size`. -/
def BM25Index.size (st : BM25Index) : ℤ := st.doc_count

/-- All dict fields of the index have Python-valid (duplicate-free)
keys, including every posting list. -/
def BM25Index.WF (st : BM25Index) : Prop :=
  DictNodup st.doc_lengths ∧ DictNodup st.doc_freqs ∧
  DictNodup st.inverted_index ∧ DictNodup st.doc_texts ∧
  DictNodup st.doc_metadata ∧
  ∀ p ∈ st.inverted_index, DictNodup p.2

-- ─────────────────────── RAG engine (engine.py) ────────────────────────

/-- A search-result dict as produced by `RAGEngine.bm25_search`
enrichment or by the semantic collaborator.  `Option` fields model dict
keys that may be absent (semantic results come from the vector store
with an unknown key set; BM25 enrichment always fills them in). -/
structure DocResult where
  id : String
  content : String
  score : ℚ
  search_type : String
  chunk_index : ℤ
  page_number : Option ℤ
  document_id : String
  filename : Option String
  original_name : Option String
deriving DecidableEq, Inhabited

/-- `RAGEngine.index_chunks`: add chunk dicts to the BM25 index,
metadata = the chunk dict minus `id`/`content`. -/
def RAGEngine.index_chunks (st : BM25Index)
    (chunks : List (String × String × Meta)) : BM25Index × ℕ :=
  chunks.foldl
    (fun p c => (p.1.add_document c.1 c.2.1 (some c.2.2), p.2 + 1))
    (st, 0)

/-- `RAGEngine.rebuild_bm25_index`: clear, then re-populate from the
database chunks (the external store, abstracted as a list). -/
def RAGEngine.rebuild_bm25_index (st : BM25Index)
    (dbChunks : List (String × String × Meta)) : BM25Index :=
  (RAGEngine.index_chunks st.clear dbChunks).1

/-- Metadata enrichment of one `(doc_id, score)` BM25 hit
(`RAGEngine.bm25_search`, lines 156–169). -/
def enrichResult (st : BM25Index) (doc_id : String) (score : ℚ) :
    DocResult :=
  let m := dgetD st.doc_metadata doc_id {}
  { id := doc_id
    content := dgetD st.doc_texts doc_id ""
    score := score
    search_type := "bm25"
    chunk_index := m.chunk_index.getD 0
    page_number := m.page_number
    document_id := (m.document_id.getD "")
    filename := some (m.filename.getD "")
    original_name := some (m.original_name.getD "") }

/-- `RAGEngine.bm25_search`.  `lg` is the abstract `math.log`;
`expand` the `QueryExpander.expand` collaborator (its module is not part
of the core); `dbChunks` the database contents used by the lazy rebuild
when the index is empty. -/
def RAGEngine.bm25_search (lg : ℚ → ℚ) (expand : String → String → String)
    (dbChunks : List (String × String × Meta)) (st : BM25Index)
    (query subject_id : String) (top_k : ℕ) (expand_query : Bool) :
    List DocResult :=
  let st := if st.size = 0 then RAGEngine.rebuild_bm25_index st dbChunks
            else st
  let search_query := if expand_query then expand query subject_id
                      else query
  (BM25Index.search lg st search_query top_k).map
    (fun ds => enrichResult st ds.1 ds.2)

/-- A candidate dict during reciprocal rank fusion:
`{**result, "rrf_score": …, "bm25_rank": …, "semantic_rank": …}`. -/
structure FusedDoc where
  res : DocResult
  rrf_score : ℚ
  bm25_rank : Option ℕ
  semantic_rank : Option ℕ
deriving DecidableEq, Inhabited

/-- First scoring loop of `RAGEngine._reciprocal_rank_fusion` over the
enumerated (rank starting at 1) BM25 results. -/
def rrfLoop1 (k : ℚ) : List (ℕ × DocResult) → Dict FusedDoc →
    Dict FusedDoc
  | [], d => d
  | ri :: rest, d =>
    rrfLoop1 k rest (dset d ri.2.id
      { res := ri.2, rrf_score := 1 / (k + ri.1),
        bm25_rank := some ri.1, semantic_rank := none })

/-- Second scoring loop of `RAGEngine._reciprocal_rank_fusion` over the
enumerated semantic results: a document already present sums the two
contributions and is tagged "hybrid". -/
def rrfLoop2 (k : ℚ) : List (ℕ × DocResult) → Dict FusedDoc →
    Dict FusedDoc
  | [], d => d
  | ri :: rest, d =>
    match dget? d ri.2.id with
    | some c =>
      rrfLoop2 k rest (dset d ri.2.id
        { res := { c.res with search_type := "hybrid" },
          rrf_score := c.rrf_score + 1 / (k + ri.1),
          bm25_rank := c.bm25_rank, semantic_rank := some ri.1 })
    | none =>
      rrfLoop2 k rest (dset d ri.2.id
        { res := { ri.2 with search_type := "semantic" },
          rrf_score := 1 / (k + ri.1),
          bm25_rank := none, semantic_rank := some ri.1 })

/-- `RAGEngine._reciprocal_rank_fusion` with RRF constant `k`: score
both enumerated lists into the candidate dict, sort the candidate
values by descending RRF score, and set the final `score` field. -/
def RAGEngine.reciprocal_rank_fusion (k : ℚ)
    (bm25_results : List DocResult)
    (semantic_results : List DocResult) : List FusedDoc :=
  (sortDescBy (fun c => c.rrf_score)
    ((rrfLoop2 k (semantic_results.enumFrom 1)
        (rrfLoop1 k (bm25_results.enumFrom 1) [])).map (·.2))).map
    (fun c => { c with res := { c.res with score := c.rrf_score } })

/-- `RAGEngine.hybrid_search`, with the semantic sub-search abstracted
as a function `sem` from the requested candidate count to the list the
collaborator returns (empty when unconfigured, failed, or timed out). -/
def RAGEngine.hybrid_search (lg : ℚ → ℚ)
    (expand : String → String → String)
    (dbChunks : List (String × String × Meta)) (sem : ℕ → List DocResult)
    (k : ℚ) (st : BM25Index) (query subject_id : String) (top_k : ℕ) :
    List DocResult :=
  let bm25_results :=
    RAGEngine.bm25_search lg expand dbChunks st query subject_id
      (top_k * 3) true
  let semantic_results := sem (top_k * 3)
  if semantic_results.isEmpty then bm25_results.take top_k
  else
    ((RAGEngine.reciprocal_rank_fusion k bm25_results
        semantic_results).map (·.res)).take top_k

-- ─────────────── Context assembly (get_context_for_query) ───────────────

/-- Source-attribution formatting of one result
(`RAGEngine.get_context_for_query`, lines 360–372): note the code reads
`original_name` first and falls back to `filename`, then `"unknown"`;
a page number is appended when it is present and truthy. -/
def formatResult (r : DocResult) : String :=
  let source := r.original_name.getD (r.filename.getD "unknown")
  let attribution := "[Source: " ++ source ++
    (match r.page_number with
     | some p => if p = 0 then "" else ", Page " ++ toString p
     | none => "") ++ "]"
  r.content ++ "\n" ++ attribution

/-- The context-assembly loop of `RAGEngine.get_context_for_query`
applied to the chosen search results. -/
def assembleContext (results : List DocResult) :
    List String × List String :=
  if results.isEmpty then ([], [])
  else (results.map formatResult, results.map (·.id))

/-- `RAGEngine.get_context_for_query`: dispatch on `search_type`, then
assemble.  The semantic collaborator is abstracted as `sem`. -/
def RAGEngine.get_context_for_query (lg : ℚ → ℚ)
    (expand : String → String → String)
    (dbChunks : List (String × String × Meta)) (sem : ℕ → List DocResult)
    (k : ℚ) (st : BM25Index) (query subject_id : String) (top_k : ℕ)
    (search_type : String) : List String × List String :=
  let results :=
    if search_type = "bm25" then
      RAGEngine.bm25_search lg expand dbChunks st query subject_id top_k
        true
    else if search_type = "semantic" then sem top_k
    else
      RAGEngine.hybrid_search lg expand dbChunks sem k st query subject_id
        top_k
  assembleContext results

-- ───────────────────── Chunking engine (chunker.py) ────────────────────

/-- `chunker.Chunk` (the unused free-form `metadata` dict is omitted). -/
structure Chunk where
  content : String
  chunk_index : ℕ
  page_number : Option ℤ := none
  start_char : ℤ := 0
  end_char : ℤ := 0
deriving DecidableEq, Inhabited

/-- Constructor arguments of `ChunkingEngine`. -/
structure ChunkCfg where
  chunk_size : ℤ := 500
  chunk_overlap : ℤ := 50
  min_chunk_size : ℤ := 50
  respect_sentences : Bool := true
deriving DecidableEq

/-- Python slicing `s[a:b]` with negative-index wrap-around. -/
def pySlice (cs : List Char) (a b : ℤ) : List Char :=
  let n : ℤ := cs.length
  let a' := if a < 0 then max 0 (n + a) else a
  let b' := if b < 0 then max 0 (n + b) else b
  (cs.take b'.toNat).drop a'.toNat

/-- Scan for `str.find`: first index ≥ `i` where `pat` is a prefix of
the remaining text. -/
def findFromGo (pat : List Char) : List Char → ℕ → ℤ
  | [], i => if pat.isEmpty then (i : ℤ) else -1
  | c :: rest, i =>
    if pat.isPrefixOf (c :: rest) then (i : ℤ)
    else findFromGo pat rest (i + 1)

/-- Python `text.find(pat, start)` (start may be negative). -/
def pyFind (text pat : List Char) (start : ℤ) : ℤ :=
  let s := if start < 0 then max 0 ((text.length : ℤ) + start) else start
  findFromGo pat (text.drop s.toNat) s.toNat

/-- Python `text.rfind(pat)`: highest match index, or -1. -/
def rfindGo (pat : List Char) : List Char → ℤ → ℤ → ℤ
  | [], _, best => best
  | c :: rest, i, best =>
    rfindGo pat rest (i + 1)
      (if pat.isPrefixOf (c :: rest) then i else best)

/-- Python `text.rfind(pat)` for a non-empty pattern. -/
def pyRfind (text pat : List Char) : ℤ := rfindGo pat text 0 (-1)

/-- Scanner for `re.split(r"\n\s*\n", text)`: at a newline followed by a
whitespace run that contains another newline, the separator extends
greedily to the last newline of the run.  Fuel dominates the remaining
length. -/
def splitParasGo : ℕ → List Char → List Char → List (List Char)
  | 0, acc, rest => [acc.reverse ++ rest]
  | _ + 1, acc, [] => [acc.reverse]
  | fuel + 1, acc, c :: rest =>
    if c = '\n' then
      let ws := rest.takeWhile isPySpace
      let tail := rest.dropWhile isPySpace
      if ws.contains '\n' then
        let after := (ws.reverse.takeWhile (fun d => ¬ d = '\n')).reverse
        acc.reverse :: splitParasGo fuel [] (after ++ tail)
      else splitParasGo fuel (c :: acc) rest
    else splitParasGo fuel (c :: acc) rest

/-- `re.split(r"\n\s*\n", text)`. -/
def splitParas (s : String) : List String :=
  (splitParasGo (s.data.length + 1) [] s.data).map (fun cs => (⟨cs⟩ : String))

/-- Python `s.replace(old, new)` for non-empty `old`, left-to-right and
non-overlapping.  Fuel dominates the remaining length. -/
def replaceGo (old new : List Char) : ℕ → List Char → List Char
  | _, [] => []
  | 0, t => t
  | fuel + 1, c :: rest =>
    if old.isPrefixOf (c :: rest) then
      new ++ replaceGo old new fuel ((c :: rest).drop old.length)
    else c :: replaceGo old new fuel rest

/-- Python `s.replace(old, new)`. -/
def pyReplace (s old new : String) : String :=
  ⟨replaceGo old.data new.data s.data.length s.data⟩

/-- The abbreviation set of `ChunkingEngine._split_sentences`, in source
order.  Python iterates the set literal in an unspecified order; the
substitution/restoration round-trip is insensitive to that order for
texts that do not already contain a `__ABBRi__` placeholder. -/
def ABBREVIATIONS : List String :=
  ["Mr.", "Mrs.", "Ms.", "Dr.", "Prof.",
   "Inc.", "Ltd.", "Corp.", "Jr.", "Sr.",
   "e.g.", "i.e.", "etc.", "vs.", "fig.",
   "approx.", "dept.", "est.", "vol."]

/-- Placeholder `__ABBR{i}__`. -/
def placeholderFor (i : ℕ) : String := "__ABBR" ++ toString i ++ "__"

/-- Scanner for `re.split(r'(?<=[.!?])\s+', text)`: split at each
maximal whitespace run preceded by `.`, `!` or `?`. -/
def splitSentGo : ℕ → Bool → List Char → List Char → List (List Char)
  | 0, _, acc, rest => [acc.reverse ++ rest]
  | _ + 1, _, acc, [] => [acc.reverse]
  | fuel + 1, prevPunct, acc, c :: rest =>
    if prevPunct && isPySpace c then
      acc.reverse :: splitSentGo fuel false [] (rest.dropWhile isPySpace)
    else
      splitSentGo fuel (c = '.' || c = '!' || c = '?') (c :: acc) rest

/-- `ChunkingEngine._split_sentences`: protect abbreviations with
placeholders, split on sentence-ending punctuation followed by
whitespace, restore, strip, and drop empties. -/
def split_sentences (text : String) : List String :=
  let replaced := ABBREVIATIONS.enum.foldl
    (fun t ia => pyReplace t ia.2 (placeholderFor ia.1)) text
  let sentences :=
    (splitSentGo (replaced.data.length + 1) false [] replaced.data).map
      (fun cs => (⟨cs⟩ : String))
  sentences.foldr
    (fun s acc =>
      let s := ABBREVIATIONS.enum.foldl
        (fun t ia => pyReplace t (placeholderFor ia.1) ia.2) s
      let s := pyStrip s
      if s = "" then acc else s :: acc)
    []

/-- The overlap carry-over loop of `_chunk_by_sentences` (lines
144–151), walking the reversed `current_chunk_parts`. -/
def overlapGo (ov : ℤ) : List String → List String → ℤ →
    List String × ℤ
  | [], acc, len => (acc, len)
  | p :: rest, acc, len =>
    if len + (p.length : ℤ) > ov then (acc, len)
    else overlapGo ov rest (p :: acc) (len + p.length + 1)

/-- Python `" ".join(parts)`. -/
def joinSp (parts : List String) : String := String.intercalate " " parts

/-- Python `"\n\n".join(parts)`. -/
def joinPara (parts : List String) : String :=
  String.intercalate "\n\n" parts

/-- Main loop of `ChunkingEngine._chunk_by_sentences`: state is
`(chunks, current_chunk_parts, current_length, char_offset)`. -/
def sentLoop (cfg : ChunkCfg) (text : List Char) :
    List String → List Chunk → List String → ℤ → ℤ →
    List Chunk × List String × ℤ
  | [], chunks, parts, _, off => (chunks, parts, off)
  | sentence :: rest, chunks, parts, clen, off =>
    if clen + (sentence.length : ℤ) > cfg.chunk_size ∧ parts ≠ [] then
      let ctext := joinSp parts
      let f := pyFind text (parts.headD "").data off
      let start := if f = -1 then off else f
      let chunks := chunks ++
        [{ content := ctext, chunk_index := chunks.length,
           start_char := start, end_char := start + ctext.length }]
      let ol := overlapGo cfg.chunk_overlap parts.reverse [] 0
      sentLoop cfg text rest chunks (ol.1 ++ [sentence])
        (ol.2 + sentence.length + 1)
        (start + ctext.length - ol.2)
    else
      sentLoop cfg text rest chunks (parts ++ [sentence])
        (clen + sentence.length + 1) off

/-- The trailing flush of `_chunk_by_sentences` ("Don't forget the
last chunk", lines 159–173). -/
def sentFlush (text : List Char) :
    List Chunk × List String × ℤ → List Chunk
  | (chunks, parts, off) =>
    if parts ≠ [] then
      let ctext := joinSp parts
      let f := pyFind text (parts.headD "").data off
      let start := if f = -1 then
          max 0 ((text.length : ℤ) - ctext.length)
        else f
      chunks ++
        [{ content := ctext, chunk_index := chunks.length,
           start_char := start, end_char := start + ctext.length }]
    else chunks

/-- `ChunkingEngine._chunk_by_sentences`. -/
def chunk_by_sentences (cfg : ChunkCfg) (textS : String) : List Chunk :=
  sentFlush textS.data
    (sentLoop cfg textS.data (split_sentences textS) [] [] 0 0)

/-- One step of `ChunkingEngine._chunk_fixed`: the window, optional
sentence-boundary shortening, and the appended chunk. -/
def lastPeriod (ct0 : List Char) : ℤ :=
  max (max (pyRfind ct0 ". ".data) (pyRfind ct0 "! ".data))
    (max (pyRfind ct0 "? ".data) (pyRfind ct0 ".\n".data))

def fixedStep (cfg : ChunkCfg) (text : List Char) (start : ℤ)
    (nchunks : ℕ) : Chunk × ℤ :=
  let end0 := start + cfg.chunk_size
  let ct0 := pySlice text start end0
  let last_period := lastPeriod ct0
  if end0 < (text.length : ℤ) ∧ cfg.respect_sentences = true ∧
      (last_period : ℚ) > (cfg.chunk_size : ℚ) * (1/2) then
    let e := start + last_period + 1
    ({ content := ⟨(pySlice text start e).dropWhile isPySpace |>.reverse
         |>.dropWhile isPySpace |>.reverse⟩,
       chunk_index := nchunks, start_char := start, end_char := e }, e)
  else
    ({ content := ⟨ct0.dropWhile isPySpace |>.reverse
         |>.dropWhile isPySpace |>.reverse⟩,
       chunk_index := nchunks, start_char := start, end_char := end0 },
     end0)

/-- The `while` loop of `ChunkingEngine._chunk_fixed`, with fuel; `none`
models non-termination (fuel exhaustion). -/
def fixedGo (cfg : ChunkCfg) (text : List Char) :
    ℕ → ℤ → List Chunk → Option (List Chunk)
  | 0, _, _ => none
  | fuel + 1, start, chunks =>
    if start < (text.length : ℤ) then
      let se := fixedStep cfg text start chunks.length
      let chunks := chunks ++ [se.1]
      let start' := se.2 - cfg.chunk_overlap
      if start' ≥ (text.length : ℤ) then some chunks
      else fixedGo cfg text fuel start' chunks
    else some chunks

/-- `ChunkingEngine._chunk_fixed`. -/
def chunk_fixed (cfg : ChunkCfg) (textS : String) : Option (List Chunk) :=
  fixedGo cfg textS.data (textS.data.length + 1) 0 []

/-- Main loop of `ChunkingEngine._chunk_by_paragraphs`: state is
`(chunks, current_parts, current_length, char_offset)`. -/
def paraLoop (cfg : ChunkCfg) (text : List Char) :
    List String → List Chunk → List String → ℤ → ℤ →
    List Chunk × List String × ℤ
  | [], chunks, parts, _, off => (chunks, parts, off)
  | para :: rest, chunks, parts, clen, off =>
    if (para.length : ℤ) > cfg.chunk_size then
      -- flush the buffer, then sub-chunk the big paragraph by sentences
      let flushed :=
        if parts ≠ [] then
          let ctext := joinPara parts
          let f := pyFind text (parts.headD "").data off
          let start := if f = -1 then off else f
          (chunks ++
            [{ content := ctext, chunk_index := chunks.length,
               start_char := start, end_char := start + ctext.length }],
           start + ctext.length)
        else (chunks, off)
      let subbed := (chunk_by_sentences cfg para).foldl
        (fun (p : List Chunk) sc =>
          p ++ [{ sc with
                  start_char := sc.start_char + flushed.2,
                  end_char := sc.end_char + flushed.2,
                  chunk_index := p.length }])
        flushed.1
      paraLoop cfg text rest subbed [] 0 (flushed.2 + para.length)
    else if clen + (para.length : ℤ) > cfg.chunk_size ∧ parts ≠ [] then
      let ctext := joinPara parts
      let f := pyFind text (parts.headD "").data off
      let start := if f = -1 then off else f
      let chunks := chunks ++
        [{ content := ctext, chunk_index := chunks.length,
           start_char := start, end_char := start + ctext.length }]
      paraLoop cfg text rest chunks [para] (para.length + 2)
        (start + ctext.length)
    else
      paraLoop cfg text rest chunks (parts ++ [para])
        (clen + para.length + 2) off

/-- `ChunkingEngine._chunk_by_paragraphs`. -/
def chunk_by_paragraphs (cfg : ChunkCfg) (textS : String) : List Chunk :=
  let text := textS.data
  let paragraphs :=
    ((splitParas textS).map pyStrip).filter (fun p => ¬ p = "")
  let r := paraLoop cfg text paragraphs [] [] 0 0
  match r with
  | (chunks, parts, off) =>
    if parts ≠ [] then
      let ctext := joinPara parts
      let f := pyFind text (parts.headD "").data off
      let start := if f = -1 then off else f
      chunks ++
        [{ content := ctext, chunk_index := chunks.length,
           start_char := start, end_char := start + ctext.length }]
    else chunks

/-- Python `int(q)` (truncation toward zero). -/
def pyInt (q : ℚ) : ℤ := if q < 0 then -((-q).floor) else q.floor

/-- `ChunkingEngine._assign_page_numbers`. -/
def assign_page_numbers (chunks : List Chunk) (full_text : List Char)
    (page_count : ℤ) : List Chunk :=
  if page_count ≤ 1 then
    chunks.map (fun c => { c with page_number := some 1 })
  else
    let chars_per_page : ℚ := (full_text.length : ℚ) / (page_count : ℚ)
    chunks.map (fun c =>
      let page := pyInt ((c.start_char : ℚ) / chars_per_page) + 1
      { c with page_number := some (min page page_count) })

/-- Post-processing of `chunk_text`: keep chunks whose stripped content
reaches `min_chunk_size`, then renumber 0..N-1. -/
def postProcess (cfg : ChunkCfg) (chunks : List Chunk) : List Chunk :=
  let kept := chunks.filter
    (fun c => cfg.min_chunk_size ≤ ((pyStrip c.content).length : ℤ))
  kept.enum.map (fun ic => { ic.2 with chunk_index := ic.1 })

/-- `ChunkingEngine.chunk_text`: strategy dispatch, page assignment,
minimum-size filter, renumbering.  `none` models the non-termination of
the fixed-size loop on degenerate configurations. -/
def chunk_text (cfg : ChunkCfg) (textS : String) (page_count : ℤ)
    (strategy : String) : Option (List Chunk) :=
  if pyStrip textS = "" then some []
  else
    let text := pyStrip textS
    let raw? :=
      if strategy = "paragraph" then some (chunk_by_paragraphs cfg text)
      else if strategy = "fixed" then chunk_fixed cfg text
      else some (chunk_by_sentences cfg text)
    raw?.map (fun chunks =>
      let chunks :=
        if page_count > 1 then
          assign_page_numbers chunks text.data page_count
        else chunks
      postProcess cfg chunks)

/-- `chunk_text` called without a `strategy` argument: the source
default is `"sentence"`. -/
def chunk_text_default (cfg : ChunkCfg) (textS : String)
    (page_count : ℤ) : Option (List Chunk) :=
  chunk_text cfg textS page_count "sentence"

-- ───────────────────────── Dict lemma kit ──────────────────────────────

theorem dget?_dset_self {α : Type} (d : Dict α) (k : String) (v : α) :
    dget? (dset d k v) k = some v := by
  induction d with
  | nil => simp [dset, dget?]
  | cons p rest ih =>
    obtain ⟨k', v'⟩ := p
    by_cases h : k' = k
    · subst h; simp [dset, dget?]
    · simp [dset, dget?, h, ih]

theorem dget?_dset_ne {α : Type} (d : Dict α) (k k' : String) (v : α)
    (h : k ≠ k') : dget? (dset d k v) k' = dget? d k' := by
  induction d with
  | nil => simp [dset, dget?, h]
  | cons p rest ih =>
    obtain ⟨k₀, v₀⟩ := p
    by_cases h₀ : k₀ = k
    · subst h₀; simp [dset, dget?, h]
    · simp [dset, dget?, h₀, ih]

theorem dcontains_dset_self {α : Type} (d : Dict α) (k : String) (v : α) :
    dcontains (dset d k v) k = true := by
  simp [dcontains, dget?_dset_self]

theorem derase_of_not_mem {α : Type} (d : Dict α) (k : String)
    (h : k ∉ dkeys d) : derase d k = d := by
  induction d with
  | nil => simp [derase]
  | cons p rest ih =>
    obtain ⟨k', v'⟩ := p
    simp only [dkeys, List.map_cons, List.mem_cons, not_or] at h
    have hne : ¬ k' = k := fun e => h.1 e.symm
    have h2 : k ∉ dkeys rest := h.2
    simp [derase, hne, ih h2]

theorem derase_dset_self {α : Type} (d : Dict α) (k : String) (v : α) :
    derase (dset d k v) k = derase d k := by
  induction d with
  | nil => simp [dset, derase]
  | cons p rest ih =>
    obtain ⟨k', v'⟩ := p
    by_cases h : k' = k
    · subst h; simp [dset, derase]
    · simp [dset, derase, h, ih]

theorem not_mem_dkeys_derase {α : Type} (d : Dict α) (k : String) :
    k ∉ dkeys (derase d k) := by
  induction d with
  | nil => simp [derase, dkeys]
  | cons p rest ih =>
    obtain ⟨k', v'⟩ := p
    by_cases h : k' = k
    · simpa [derase, h] using ih
    · simp only [derase, if_neg h, dkeys, List.map_cons, List.mem_cons,
        not_or]
      exact ⟨fun hh => h hh.symm, by simpa [dkeys] using ih⟩

theorem dkeys_derase_subset {α : Type} (d : Dict α) (k : String) :
    dkeys (derase d k) ⊆ dkeys d := by
  induction d with
  | nil => simp [derase]
  | cons p rest ih =>
    obtain ⟨k', v'⟩ := p
    by_cases hk : k' = k
    · simp only [derase, if_pos hk, dkeys, List.map_cons]
      exact fun a ha => List.mem_cons_of_mem _ (ih ha)
    · simp only [derase, if_neg hk, dkeys, List.map_cons]
      intro a ha
      rcases List.mem_cons.1 ha with h1 | h1
      · exact List.mem_cons.2 (Or.inl h1)
      · exact List.mem_cons_of_mem _ (ih h1)

theorem nodup_derase {α : Type} (d : Dict α) (k : String)
    (h : DictNodup d) : DictNodup (derase d k) := by
  induction d with
  | nil => simpa [derase] using h
  | cons p rest ih =>
    obtain ⟨k', v'⟩ := p
    simp only [DictNodup, dkeys, List.map_cons, List.nodup_cons] at h
    by_cases hk : k' = k
    · simpa [derase, hk, DictNodup] using ih h.2
    · simp only [derase, if_neg hk, DictNodup, dkeys, List.map_cons,
        List.nodup_cons]
      exact ⟨fun hm => h.1 (dkeys_derase_subset rest k hm), ih h.2⟩

theorem dsum_dset (d : Dict ℕ) (k : String) (v : ℕ)
    (h : DictNodup d) : dsum (dset d k v) = dsum (derase d k) + v := by
  induction d with
  | nil => simp [dset, derase, dsum]
  | cons p rest ih =>
    obtain ⟨k', v'⟩ := p
    simp only [DictNodup, dkeys, List.map_cons, List.nodup_cons] at h
    by_cases hk : k' = k
    · subst hk
      have : derase rest k' = rest := derase_of_not_mem rest k' h.1
      simp [dset, derase, dsum, this, Nat.add_comm]
    · simp only [dset, if_neg hk, derase, dsum, List.map_cons,
        List.sum_cons]
      have := ih h.2
      simp only [dsum] at this
      omega

instance {α : Type} (d : Dict α) : Decidable (DictNodup d) :=
  List.nodupDecidable (dkeys d)

-- ──────────────────────────── Claim C9 ─────────────────────────────────

theorem add_documents_count_aux
    (docs : List (String × String × Option Meta)) :
    ∀ (st : BM25Index) (n : ℕ),
      (docs.foldl
        (fun p dtm => (p.1.add_document dtm.1 dtm.2.1 dtm.2.2, p.2 + 1))
        (st, n)).2 = n + docs.length := by
  induction docs with
  | nil => intro st n; simp
  | cons d rest ih =>
    intro st n
    simp only [List.foldl_cons, List.length_cons]
    rw [ih]
    omega

/-- C9: the batch add returns the length of its input list because the
counter is incremented unconditionally, and an entry with empty or
whitespace-only text or id is skipped leaving the index state entirely
unchanged — so the returned count can exceed the index growth. -/
theorem add_documents_returns_input_length :
    (∀ (st : BM25Index) (docs : List (String × String × Option Meta)),
      (st.add_documents docs).2 = docs.length) ∧
    (∀ (st : BM25Index) (doc_id text : String) (meta : Option Meta),
      pyStrip text = "" ∨ pyStrip doc_id = "" →
      st.add_document doc_id text meta = st) := by
  constructor
  · intro st docs
    simpa using add_documents_count_aux docs st 0
  · intro st doc_id text meta h
    rcases h with h | h
    · simp [BM25Index.add_document, h]
    · by_cases ht : pyStrip text = ""
      · simp [BM25Index.add_document, ht]
      · simp [BM25Index.add_document, ht, h]

/-- Witness for C9: a batch of three entries, one with an empty id and
one whitespace-only, reports count 3 while only one document lands. -/
theorem add_documents_returns_input_length_witness :
    (BM25Index.add_documents {}
      [("d1", "alpha beta", none), ("", "gamma", none),
       ("d3", "   ", none)]).2 = 3 ∧
    BM25Index.add_document {} "" "gamma" none = {} := by
  constructor
  · exact add_documents_returns_input_length.1 {} _
  · exact add_documents_returns_input_length.2 {} "" "gamma" none
      (Or.inr (by decide))

-- ──────────────────────────── Claim C5 ─────────────────────────────────

/-- C5: removing an unknown id leaves the whole index state unchanged,
searching an index with zero documents returns `[]`, and a query that
tokenizes to no tokens returns `[]`; none of these is an error. -/
theorem index_noops :
    (∀ (st : BM25Index) (doc_id : String),
      dcontains st.doc_texts doc_id = false →
      st.remove_document doc_id = st) ∧
    (∀ (lg : ℚ → ℚ) (st : BM25Index) (q : String) (limit : ℕ),
      st.doc_count = 0 → BM25Index.search lg st q limit = []) ∧
    (∀ (lg : ℚ → ℚ) (st : BM25Index) (q : String) (limit : ℕ),
      bm25Tokenize q = [] → BM25Index.search lg st q limit = []) := by
  refine ⟨?_, ?_, ?_⟩
  · intro st doc_id h
    simp [BM25Index.remove_document, h]
  · intro lg st q limit h
    simp [BM25Index.search, h]
  · intro lg st q limit h
    by_cases h0 : st.doc_count = 0
    · simp [BM25Index.search, h0]
    · simp [BM25Index.search, h0, h]

/-- Witness for C5: a ghost removal on the empty index, a search of the
empty index, and a stop-word-only query on a populated index. -/
theorem index_noops_witness :
    BM25Index.remove_document {} "ghost" = {} ∧
    BM25Index.search (fun q => q) {} "subnet" 5 = [] ∧
    BM25Index.search (fun q => q)
      (BM25Index.add_document {} "d1" "alpha beta" none) "the a" 5 = [] := by
  refine ⟨?_, ?_, ?_⟩
  · exact index_noops.1 {} "ghost" (by decide)
  · exact index_noops.2.1 (fun q => q) {} "subnet" 5 (by decide)
  · exact index_noops.2.2 (fun q => q) _ "the a" 5 (by decide)

-- ──────────────────────────── Claim C4 ─────────────────────────────────

/-- C4: for an id not currently present and a non-empty text, add then
remove then identical re-add restores `doc_count` and `avgdl` to their
values right after the first add. -/
theorem add_remove_add_restores (st : BM25Index) (x t : String)
    (meta : Option Meta) (hnd : DictNodup st.doc_lengths)
    (hx : dcontains st.doc_texts x = false) (ht : t ≠ "") :
    (((st.add_document x t meta).remove_document x).add_document
        x t meta).doc_count = (st.add_document x t meta).doc_count ∧
    (((st.add_document x t meta).remove_document x).add_document
        x t meta).avgdl = (st.add_document x t meta).avgdl := by
  by_cases hts : pyStrip t = ""
  · simp [BM25Index.add_document, hts, BM25Index.remove_document, hx]
  by_cases hxs : pyStrip x = ""
  · simp [BM25Index.add_document, hts, hxs, BM25Index.remove_document, hx]
  have key : dsum (dset (derase
        (dset st.doc_lengths x (bm25Tokenize t).length) x) x
        (bm25Tokenize t).length)
      = dsum (dset st.doc_lengths x (bm25Tokenize t).length) := by
    rw [derase_dset_self]
    rw [dsum_dset _ _ _ (nodup_derase _ _ hnd)]
    rw [derase_of_not_mem _ _ (not_mem_dkeys_derase _ _)]
    rw [dsum_dset _ _ _ hnd]
  constructor
  · simp [BM25Index.add_document, hts, hxs, BM25Index.remove_document,
      dcontains_dset_self]
  · simp [BM25Index.add_document, hts, hxs, BM25Index.remove_document,
      dcontains_dset_self, dgetD, dget?_dset_self, key]

/-- Witness for C4: add/remove/re-add of a concrete document on a
one-document index. -/
theorem add_remove_add_restores_witness :
    ((((BM25Index.add_document {} "d0" "alpha beta gamma" none).add_document
        "d1" "delta beta" none).remove_document "d1").add_document
        "d1" "delta beta" none).doc_count
      = ((BM25Index.add_document {} "d0" "alpha beta gamma" none).add_document
        "d1" "delta beta" none).doc_count ∧
    ((((BM25Index.add_document {} "d0" "alpha beta gamma" none).add_document
        "d1" "delta beta" none).remove_document "d1").add_document
        "d1" "delta beta" none).avgdl
      = ((BM25Index.add_document {} "d0" "alpha beta gamma" none).add_document
        "d1" "delta beta" none).avgdl :=
  add_remove_add_restores
    (BM25Index.add_document {} "d0" "alpha beta gamma" none)
    "d1" "delta beta" none (by decide) (by decide) (by decide)

-- ──────────────────────────── Claim C1 ─────────────────────────────────

theorem dcontains_iff_mem {α : Type} (d : Dict α) (k : String) :
    dcontains d k = true ↔ k ∈ dkeys d := by
  induction d with
  | nil => simp [dcontains, dget?, dkeys]
  | cons p rest ih =>
    obtain ⟨k', v'⟩ := p
    by_cases h : k' = k
    · subst h; simp [dcontains, dget?, dkeys]
    · simp only [dcontains, dget?, if_neg h, dkeys, List.map_cons,
        List.mem_cons]
      rw [← dkeys] at *
      constructor
      · intro hh; exact Or.inr ((ih).1 hh)
      · intro hh
        rcases hh with hh | hh
        · exact absurd hh.symm h
        · exact (ih).2 hh

theorem dget?_mem {α : Type} (d : Dict α) (k : String) (v : α)
    (h : dget? d k = some v) : (k, v) ∈ d := by
  induction d with
  | nil => simp [dget?] at h
  | cons p rest ih =>
    obtain ⟨k', v'⟩ := p
    by_cases hk : k' = k
    · simp only [dget?, hk, eq_self_iff_true, if_true,
        Option.some.injEq] at h
      rw [← hk, ← h]
      exact List.mem_cons_self _ _
    · simp only [dget?, if_neg hk] at h
      exact List.mem_cons_of_mem _ (ih h)

theorem dget?_eq_some_of_mem {α : Type} (d : Dict α) (p : String × α)
    (h : DictNodup d) (hp : p ∈ d) : dget? d p.1 = some p.2 := by
  induction d with
  | nil => simp at hp
  | cons q rest ih =>
    obtain ⟨k', v'⟩ := q
    simp only [DictNodup, dkeys, List.map_cons, List.nodup_cons] at h
    rcases List.mem_cons.1 hp with hh | hh
    · subst hh; simp [dget?]
    · have hne : ¬ k' = p.1 := by
        intro e
        exact h.1 (e ▸ (List.mem_map_of_mem Prod.fst hh))
      simp only [dget?, if_neg hne]
      exact ih h.2 hh

theorem mem_dkeys_dset {α : Type} (d : Dict α) (k a : String) (v : α)
    (h : a ∈ dkeys (dset d k v)) : a = k ∨ a ∈ dkeys d := by
  induction d with
  | nil => simpa [dset, dkeys] using h
  | cons p rest ih =>
    obtain ⟨k', v'⟩ := p
    by_cases hk : k' = k
    · subst hk
      simpa [dset, dkeys, eq_comm, Or.comm] using h
    · simp only [dset, if_neg hk, dkeys, List.map_cons, List.mem_cons]
        at h ⊢
      rcases h with h | h
      · exact Or.inr (Or.inl h)
      · rcases ih h with h | h
        · exact Or.inl h
        · exact Or.inr (Or.inr h)

theorem nodup_dset {α : Type} (d : Dict α) (k : String) (v : α)
    (h : DictNodup d) : DictNodup (dset d k v) := by
  induction d with
  | nil => simp [dset, DictNodup, dkeys]
  | cons p rest ih =>
    obtain ⟨k', v'⟩ := p
    simp only [DictNodup, dkeys, List.map_cons, List.nodup_cons] at h
    by_cases hk : k' = k
    · have hd : dset ((k', v') :: rest) k v = (k, v) :: rest := by
        simp [dset, hk]
      rw [hd]
      simp only [DictNodup, dkeys, List.map_cons, List.nodup_cons]
      rw [← hk]
      exact h
    · simp only [dset, if_neg hk, DictNodup, dkeys, List.map_cons,
        List.nodup_cons]
      refine ⟨fun hm => ?_, ih h.2⟩
      rcases mem_dkeys_dset rest k k' v hm with e | e
      · exact hk e
      · exact h.1 e

theorem dgetD_eq_zero_of_not_contains (d : Dict ℕ) (k : String)
    (h : ¬ dcontains d k = true) : dgetD d k 0 = 0 := by
  rcases hh : dget? d k with _ | v
  · simp [dgetD, hh]
  · exact absurd (by simp [dcontains, hh]) h

theorem scoresForTerm_getD (k1 b avgdl idf : ℚ) (dls : Dict ℕ)
    (posting : Dict ℕ) :
    ∀ (sc : Dict ℚ) (d : String), DictNodup posting →
      dgetD (scoresForTerm k1 b avgdl idf dls posting sc) d 0 =
        dgetD sc d 0 +
          (if dcontains posting d then
            idf * tfNorm k1 b avgdl (dgetD posting d 0 : ℕ)
              (dgetD dls d 0 : ℕ)
          else 0) := by
  induction posting with
  | nil => intro sc d _; simp [scoresForTerm, dcontains, dget?]
  | cons p rest ih =>
    intro sc d hnd
    obtain ⟨d', tf⟩ := p
    simp only [DictNodup, dkeys, List.map_cons, List.nodup_cons] at hnd
    have step : scoresForTerm k1 b avgdl idf dls ((d', tf) :: rest) sc =
        scoresForTerm k1 b avgdl idf dls rest
          (dset sc d' (dgetD sc d' 0 +
            idf * tfNorm k1 b avgdl (tf : ℕ) (dgetD dls d' 0 : ℕ))) := by
      simp [scoresForTerm]
    rw [step, ih _ d hnd.2]
    by_cases hd : d' = d
    · subst hd
      have hrest : ¬ dcontains rest d' = true := by
        intro hc; exact hnd.1 ((dcontains_iff_mem rest d').1 hc)
      have e1 : dgetD (dset sc d' (dgetD sc d' 0 +
          idf * tfNorm k1 b avgdl (tf : ℕ) (dgetD dls d' 0 : ℕ))) d' 0 =
          dgetD sc d' 0 +
            idf * tfNorm k1 b avgdl (tf : ℕ) (dgetD dls d' 0 : ℕ) := by
        simp [dgetD, dget?_dset_self]
      have e2 : dcontains ((d', tf) :: rest) d' = true := by
        simp [dcontains, dget?]
      have e3 : dgetD ((d', tf) :: rest) d' 0 = tf := by
        simp [dgetD, dget?]
      rw [e1, if_neg hrest, e2, e3, add_zero, if_pos rfl]
    · have e4 : dget? (dset sc d' (dgetD sc d' 0 +
          idf * tfNorm k1 b avgdl (tf : ℕ) (dgetD dls d' 0 : ℕ))) d =
          dget? sc d := dget?_dset_ne sc d' d _ hd
      have e5 : dcontains ((d', tf) :: rest) d = dcontains rest d := by
        simp [dcontains, dget?, hd]
      have e6 : dgetD ((d', tf) :: rest) d 0 = dgetD rest d 0 := by
        simp [dgetD, dget?, hd]
      rw [e5, e6]
      simp only [dgetD] at e4 ⊢
      rw [e4]

theorem scoresForTerm_nodup (k1 b avgdl idf : ℚ) (dls : Dict ℕ)
    (posting : Dict ℕ) :
    ∀ (sc : Dict ℚ), DictNodup sc →
      DictNodup (scoresForTerm k1 b avgdl idf dls posting sc) := by
  induction posting with
  | nil => intro sc h; simpa [scoresForTerm] using h
  | cons p rest ih =>
    intro sc h
    obtain ⟨d', tf⟩ := p
    have step : scoresForTerm k1 b avgdl idf dls ((d', tf) :: rest) sc =
        scoresForTerm k1 b avgdl idf dls rest
          (dset sc d' (dgetD sc d' 0 +
            idf * tfNorm k1 b avgdl (tf : ℕ) (dgetD dls d' 0 : ℕ))) := by
      simp [scoresForTerm]
    rw [step]
    exact ih _ (nodup_dset _ _ _ h)

/-- The contribution of one query token to one document's score, as
accumulated by `scoreFold`. -/
def termContribution (lg : ℚ → ℚ) (st : BM25Index) (term d : String) :
    ℚ :=
  match dget? st.inverted_index term with
  | none => 0
  | some posting =>
    if dcontains posting d then
      lg (idfArg st.doc_count (dgetD st.doc_freqs term 0 : ℕ)) *
        tfNorm st.k1 st.b st.avgdl (dgetD posting d 0 : ℕ)
          (dgetD st.doc_lengths d 0 : ℕ)
    else 0

theorem scoreFold_getD (lg : ℚ → ℚ) (st : BM25Index)
    (hwf : ∀ p ∈ st.inverted_index, DictNodup p.2) (toks : List String) :
    ∀ (sc : Dict ℚ) (d : String),
      dgetD (scoreFold lg st toks sc) d 0 =
        dgetD sc d 0 +
          ((toks.map (fun t => termContribution lg st t d)).sum) := by
  induction toks with
  | nil => intro sc d; simp [scoreFold]
  | cons term rest ih =>
    intro sc d
    rcases h : dget? st.inverted_index term with _ | posting
    · have step : scoreFold lg st (term :: rest) sc =
          scoreFold lg st rest sc := by
        simp [scoreFold, h]
      rw [step, ih sc d]
      simp [termContribution, h]
    · have hpn : DictNodup posting :=
        hwf (term, posting) (dget?_mem _ _ _ h)
      have step : scoreFold lg st (term :: rest) sc =
          scoreFold lg st rest
            (scoresForTerm st.k1 st.b st.avgdl
              (lg (idfArg st.doc_count (dgetD st.doc_freqs term 0 : ℕ)))
              st.doc_lengths posting sc) := by
        simp [scoreFold, h]
      rw [step, ih _ d, scoresForTerm_getD _ _ _ _ _ _ _ _ hpn]
      simp only [termContribution, h, List.map_cons, List.sum_cons]
      ring

theorem scoreFold_nodup (lg : ℚ → ℚ) (st : BM25Index)
    (toks : List String) :
    ∀ (sc : Dict ℚ), DictNodup sc →
      DictNodup (scoreFold lg st toks sc) := by
  induction toks with
  | nil => intro sc h; simpa [scoreFold] using h
  | cons term rest ih =>
    intro sc h
    rcases hh : dget? st.inverted_index term with _ | posting
    · have step : scoreFold lg st (term :: rest) sc =
          scoreFold lg st rest sc := by
        simp [scoreFold, hh]
      rw [step]; exact ih sc h
    · have step : scoreFold lg st (term :: rest) sc =
          scoreFold lg st rest
            (scoresForTerm st.k1 st.b st.avgdl
              (lg (idfArg st.doc_count (dgetD st.doc_freqs term 0 : ℕ)))
              st.doc_lengths posting sc) := by
        simp [scoreFold, hh]
      rw [step]
      exact ih _ (scoresForTerm_nodup _ _ _ _ _ _ _ h)

theorem insertDesc_perm {α : Type} (key : α → ℚ) (x : α) (l : List α) :
    List.Perm (insertDesc key x l) (x :: l) := by
  induction l with
  | nil => simp [insertDesc]
  | cons y ys ih =>
    by_cases h : key x ≤ key y
    · simp only [insertDesc, if_pos h]
      exact (ih.cons y).trans (List.Perm.swap x y ys)
    · simp [insertDesc, h]

theorem sortDescBy_perm_aux {α : Type} (key : α → ℚ) (l : List α) :
    ∀ acc : List α,
      List.Perm (l.foldl (fun a x => insertDesc key x a) acc) (acc ++ l) := by
  induction l with
  | nil => intro acc; simp
  | cons x xs ih =>
    intro acc
    simp only [List.foldl_cons]
    refine (ih (insertDesc key x acc)).trans ?_
    refine (List.Perm.append_right xs (insertDesc_perm key x acc)).trans ?_
    exact List.perm_middle.symm.trans (by simp)

theorem sortDescBy_perm {α : Type} (key : α → ℚ) (l : List α) :
    List.Perm (sortDescBy key l) l := by
  simpa [sortDescBy] using sortDescBy_perm_aux key l []

/-- The claim's Okapi BM25 score of document `d` for a query, with
`k1 = 1.5`, `b = 0.75`, `ln` abstracted as `lg`, and terms absent from
the index contributing 0 (a term the document lacks has `tf = 0` and
contributes 0 through the formula). -/
def bm25SpecScore (lg : ℚ → ℚ) (st : BM25Index) (query d : String) : ℚ :=
  ((bm25Tokenize query).map (fun t =>
    if dcontains st.inverted_index t then
      let df : ℚ := (dgetD st.doc_freqs t 0 : ℕ)
      let tf : ℚ := (dgetD (dgetD st.inverted_index t []) d 0 : ℕ)
      let dl : ℚ := (dgetD st.doc_lengths d 0 : ℕ)
      lg (((st.doc_count : ℚ) - df + 1/2) / (df + 1/2) + 1) *
        (tf * (3/2 + 1) / (tf + 3/2 * (1 - 3/4 + 3/4 * dl / st.avgdl)))
    else 0)).sum

theorem termContribution_eq_spec (lg : ℚ → ℚ) (st : BM25Index)
    (hk1 : st.k1 = 3/2) (hb : st.b = 3/4) (t d : String) :
    termContribution lg st t d =
      (if dcontains st.inverted_index t then
        lg (((st.doc_count : ℚ) - (dgetD st.doc_freqs t 0 : ℕ) + 1/2) /
            ((dgetD st.doc_freqs t 0 : ℕ) + 1/2) + 1) *
          ((dgetD (dgetD st.inverted_index t []) d 0 : ℕ) * (3/2 + 1) /
            ((dgetD (dgetD st.inverted_index t []) d 0 : ℕ) +
              3/2 * (1 - 3/4 + 3/4 * (dgetD st.doc_lengths d 0 : ℕ) /
                st.avgdl)))
      else 0) := by
  rcases h : dget? st.inverted_index t with _ | posting
  · have hc : ¬ dcontains st.inverted_index t = true := by
      simp [dcontains, h]
    unfold termContribution
    rw [h, if_neg hc]
  · have hc : dcontains st.inverted_index t = true := by
      simp [dcontains, h]
    have hpost : dgetD st.inverted_index t [] = posting := by
      simp [dgetD, h]
    unfold termContribution
    rw [h]
    by_cases hd : dcontains posting d = true
    · simp [hd, hc, hpost, idfArg, tfNorm, hk1, hb]
    · have h0 : dgetD posting d 0 = 0 :=
        dgetD_eq_zero_of_not_contains posting d hd
      simp [hd, hc, hpost, h0]

/-- C1: every `(doc_id, score)` pair returned by `BM25Index.search`
carries exactly the Okapi BM25 score with `k1 = 1.5`, `b = 0.75`:
the sum over the query's tokens of `idf * tf_norm`, terms absent from
the index contributing 0 (`lg` is the `math.log` primitive). -/
theorem search_score_eq_bm25 (lg : ℚ → ℚ) (st : BM25Index)
    (hwf : ∀ p ∈ st.inverted_index, DictNodup p.2)
    (hk1 : st.k1 = 3/2) (hb : st.b = 3/4) (query : String) (limit : ℕ)
    (p : String × ℚ) (hp : p ∈ BM25Index.search lg st query limit) :
    p.2 = bm25SpecScore lg st query p.1 := by
  by_cases h0 : st.doc_count = 0
  · simp [BM25Index.search, h0] at hp
  by_cases hq : (bm25Tokenize query).isEmpty
  · simp [BM25Index.search, h0, hq] at hp
  have hp2 : p ∈ scoreFold lg st (bm25Tokenize query) [] := by
    simp only [BM25Index.search, if_neg h0, hq, Bool.false_eq_true,
      if_false] at hp
    exact (sortDescBy_perm (fun x => x.2) _).mem_iff.mp
      (List.mem_of_mem_take hp)
  have hnd : DictNodup (scoreFold lg st (bm25Tokenize query) []) :=
    scoreFold_nodup lg st _ [] (by simp [DictNodup, dkeys])
  have hv : dget? (scoreFold lg st (bm25Tokenize query) []) p.1 =
      some p.2 := dget?_eq_some_of_mem _ p hnd hp2
  have : dgetD (scoreFold lg st (bm25Tokenize query) []) p.1 0 = p.2 := by
    simp [dgetD, hv]
  rw [← this, scoreFold_getD lg st hwf _ [] p.1]
  have hcongr :
      (bm25Tokenize query).map (fun t => termContribution lg st t p.1) =
      (bm25Tokenize query).map (fun t =>
        if dcontains st.inverted_index t then
          lg (((st.doc_count : ℚ) - (dgetD st.doc_freqs t 0 : ℕ) + 1/2) /
              ((dgetD st.doc_freqs t 0 : ℕ) + 1/2) + 1) *
            ((dgetD (dgetD st.inverted_index t []) p.1 0 : ℕ) * (3/2 + 1) /
              ((dgetD (dgetD st.inverted_index t []) p.1 0 : ℕ) +
                3/2 * (1 - 3/4 + 3/4 * (dgetD st.doc_lengths p.1 0 : ℕ) /
                  st.avgdl)))
        else 0) := by
    apply List.map_congr_left
    intro t _
    exact termContribution_eq_spec lg st hk1 hb t p.1
  rw [hcongr]
  simp [bm25SpecScore, dgetD, dget?]

/-- A one-document index used by the C1 witness. -/
def c1State : BM25Index :=
  BM25Index.add_document {} "d1" "alpha beta" none

/-- Witness for C1: on a concrete one-document index the hit for
"alpha" scores `4/3` (with `lg` the identity), and the theorem equates
it with the Okapi formula. -/
theorem search_score_eq_bm25_witness :
    (("d1", (4 : ℚ)/3) ∈
      BM25Index.search (fun q => q) c1State "alpha" 10) ∧
    ((4 : ℚ)/3) = bm25SpecScore (fun q => q) c1State "alpha" "d1" := by
  have hs : BM25Index.search (fun q => q) c1State "alpha" 10 =
      [("d1", (4 : ℚ)/3)] := by with_unfolding_all rfl
  constructor
  · rw [hs]; exact List.mem_cons_self _ _
  · exact search_score_eq_bm25 (fun q => q) c1State (by decide)
      rfl rfl "alpha" 10 ("d1", (4 : ℚ)/3)
      (by rw [hs]; exact List.mem_cons_self _ _)

-- ──────────────────────────── Claim C2 ─────────────────────────────────

theorem search_take (lg : ℚ → ℚ) (st : BM25Index) (q : String) (k : ℕ) :
    (BM25Index.search lg st q (k * 3)).take k =
      BM25Index.search lg st q k := by
  unfold BM25Index.search
  by_cases h0 : st.doc_count = 0
  · simp [h0]
  by_cases hq : (bm25Tokenize q).isEmpty
  · simp [h0, hq]
  simp only [if_neg h0, hq, Bool.false_eq_true, if_false]
  rw [List.take_take]
  congr 1
  omega

/-- C2: if the semantic sub-search returns zero results, hybrid search
returns exactly the lexical (BM25) results truncated to `top_k`, with
ids and ordering identical to a pure lexical search for the same
`(query, top_k)`. -/
theorem hybrid_falls_back_to_bm25 (lg : ℚ → ℚ)
    (expand : String → String → String)
    (dbChunks : List (String × String × Meta)) (sem : ℕ → List DocResult)
    (k : ℚ) (st : BM25Index) (query subject_id : String) (top_k : ℕ)
    (hsem : sem (top_k * 3) = []) :
    RAGEngine.hybrid_search lg expand dbChunks sem k st query subject_id
        top_k =
      RAGEngine.bm25_search lg expand dbChunks st query subject_id top_k
        true := by
  unfold RAGEngine.hybrid_search
  rw [hsem]
  simp only [List.isEmpty_nil, if_true]
  unfold RAGEngine.bm25_search
  rw [← List.map_take, search_take]

/-- Witness for C2: concrete engine state with an unconfigured semantic
collaborator (returning `[]`). -/
theorem hybrid_falls_back_to_bm25_witness :
    RAGEngine.hybrid_search (fun q => q) (fun q _ => q)
        [("c1", "alpha beta", {})] (fun _ => []) 60 {} "alpha" "s1" 5 =
      RAGEngine.bm25_search (fun q => q) (fun q _ => q)
        [("c1", "alpha beta", {})] {} "alpha" "s1" 5 true :=
  hybrid_falls_back_to_bm25 (fun q => q) (fun q _ => q)
    [("c1", "alpha beta", {})] (fun _ => []) 60 {} "alpha" "s1" 5 rfl

-- ──────────────────────────── Claim C3 ─────────────────────────────────

theorem dset_append_of_not_mem {α : Type} (d : Dict α) (k : String)
    (v : α) (h : k ∉ dkeys d) : dset d k v = d ++ [(k, v)] := by
  induction d with
  | nil => simp [dset]
  | cons p rest ih =>
    obtain ⟨k', v'⟩ := p
    simp only [dkeys, List.map_cons, List.mem_cons, not_or] at h
    have hne : ¬ k' = k := fun e => h.1 e.symm
    simp [dset, hne, ih (by simpa [dkeys] using h.2)]

theorem dget?_append_of_not_mem {α : Type} (P M : Dict α) (k : String)
    (h : k ∉ dkeys P) : dget? (P ++ M) k = dget? M k := by
  induction P with
  | nil => simp
  | cons p rest ih =>
    obtain ⟨k', v'⟩ := p
    simp only [dkeys, List.map_cons, List.mem_cons, not_or] at h
    have hne : ¬ k' = k := fun e => h.1 e.symm
    simp [List.cons_append, dget?, hne,
      ih (by simpa [dkeys] using h.2)]

theorem dset_append_mid {α : Type} (P M : Dict α) (k : String) (v w : α)
    (h : k ∉ dkeys P) : dset (P ++ (k, v) :: M) k w = P ++ (k, w) :: M := by
  induction P with
  | nil => simp [dset]
  | cons p rest ih =>
    obtain ⟨k', v'⟩ := p
    simp only [dkeys, List.map_cons, List.mem_cons, not_or] at h
    have hne : ¬ k' = k := fun e => h.1 e.symm
    simp [List.cons_append, dset, hne,
      ih (by simpa [dkeys] using h.2)]

/-- The candidate the first RRF loop records for an entry of rank `r`. -/
def rrfSingle (k : ℚ) (ri : ℕ × DocResult) : String × FusedDoc :=
  (ri.2.id, { res := ri.2, rrf_score := 1 / (k + ri.1),
              bm25_rank := some ri.1, semantic_rank := none })

/-- The candidate after the second loop meets the same entry again. -/
def rrfDoubled (k : ℚ) (ri : ℕ × DocResult) : String × FusedDoc :=
  (ri.2.id, { res := { ri.2 with search_type := "hybrid" },
              rrf_score := 1 / (k + ri.1) + 1 / (k + ri.1),
              bm25_rank := some ri.1, semantic_rank := some ri.1 })

theorem rrfLoop1_eq (k : ℚ) :
    ∀ (l : List (ℕ × DocResult)) (P : Dict FusedDoc),
      (∀ ri ∈ l, ri.2.id ∉ dkeys P) →
      (l.map (fun ri => ri.2.id)).Nodup →
      rrfLoop1 k l P = P ++ l.map (rrfSingle k) := by
  intro l
  induction l with
  | nil => intro P _ _; simp [rrfLoop1]
  | cons ri rest ih =>
    intro P hP hnd
    simp only [List.map_cons, List.nodup_cons] at hnd
    have h1 : ri.2.id ∉ dkeys P := hP ri (List.mem_cons_self _ _)
    have step : rrfLoop1 k (ri :: rest) P =
        rrfLoop1 k rest (dset P ri.2.id (rrfSingle k ri).2) := rfl
    rw [step, dset_append_of_not_mem _ _ _ h1]
    have hP' : ∀ x ∈ rest,
        x.2.id ∉ dkeys (P ++ [(ri.2.id, (rrfSingle k ri).2)]) := by
      intro x hx
      have hk : dkeys (P ++ [(ri.2.id, (rrfSingle k ri).2)]) =
          dkeys P ++ [ri.2.id] := by simp [dkeys]
      rw [hk, List.mem_append]
      rintro (h | h)
      · exact hP x (List.mem_cons_of_mem _ hx) h
      · simp only [List.mem_singleton] at h
        exact hnd.1 (by rw [← h]; exact List.mem_map_of_mem _ hx)
    rw [ih _ hP' hnd.2]
    have hpair : (ri.2.id, (rrfSingle k ri).2) = rrfSingle k ri := rfl
    rw [hpair]
    simp

theorem rrfLoop2_eq (k : ℚ) :
    ∀ (l : List (ℕ × DocResult)) (P : Dict FusedDoc),
      (∀ ri ∈ l, ri.2.id ∉ dkeys P) →
      (l.map (fun ri => ri.2.id)).Nodup →
      rrfLoop2 k l (P ++ l.map (rrfSingle k)) =
        P ++ l.map (rrfDoubled k) := by
  intro l
  induction l with
  | nil => intro P _ _; simp [rrfLoop2]
  | cons ri rest ih =>
    intro P hP hnd
    simp only [List.map_cons, List.nodup_cons] at hnd
    have h1 : ri.2.id ∉ dkeys P := hP ri (List.mem_cons_self _ _)
    have hget : dget?
        (P ++ rrfSingle k ri :: rest.map (rrfSingle k)) ri.2.id =
        some (rrfSingle k ri).2 := by
      rw [dget?_append_of_not_mem _ _ _ h1]
      simp [rrfSingle, dget?]
    have step : rrfLoop2 k (ri :: rest)
        (P ++ (ri :: rest).map (rrfSingle k)) =
        rrfLoop2 k rest (dset
          (P ++ rrfSingle k ri :: rest.map (rrfSingle k)) ri.2.id
          (rrfDoubled k ri).2) := by
      simp only [List.map_cons, rrfLoop2, hget]
      rfl
    rw [step]
    have hpair : rrfSingle k ri = (ri.2.id, (rrfSingle k ri).2) := rfl
    rw [hpair, dset_append_mid _ _ _ _ _ h1]
    have hP' : ∀ x ∈ rest,
        x.2.id ∉ dkeys (P ++ [(ri.2.id, (rrfDoubled k ri).2)]) := by
      intro x hx
      have hk : dkeys (P ++ [(ri.2.id, (rrfDoubled k ri).2)]) =
          dkeys P ++ [ri.2.id] := by simp [dkeys]
      rw [hk, List.mem_append]
      rintro (h | h)
      · exact hP x (List.mem_cons_of_mem _ hx) h
      · simp only [List.mem_singleton] at h
        exact hnd.1 (by rw [← h]; exact List.mem_map_of_mem _ hx)
    have reassoc : P ++ (ri.2.id, (rrfDoubled k ri).2) ::
        rest.map (rrfSingle k) =
        (P ++ [(ri.2.id, (rrfDoubled k ri).2)]) ++
          rest.map (rrfSingle k) := by
      simp
    rw [reassoc, ih _ hP' hnd.2]
    have : (ri.2.id, (rrfDoubled k ri).2) = rrfDoubled k ri := rfl
    simp [this]

theorem enumFrom_map_id (L : List DocResult) (n : ℕ) :
    (L.enumFrom n).map (fun ri => ri.2.id) = L.map (·.id) := by
  have : (fun (ri : ℕ × DocResult) => ri.2.id) =
      (fun r : DocResult => r.id) ∘ Prod.snd := rfl
  rw [this, ← List.map_map, List.enumFrom_map_snd]

theorem le_fst_of_mem_enumFrom {α : Type} (l : List α) :
    ∀ (n : ℕ) (p : ℕ × α), p ∈ l.enumFrom n → n ≤ p.1 := by
  induction l with
  | nil => intro n p h; simp at h
  | cons x xs ih =>
    intro n p h
    rw [List.enumFrom_cons] at h
    rcases List.mem_cons.1 h with h | h
    · exact le_of_eq (by rw [h])
    · exact Nat.le_of_succ_le (ih (n + 1) p h)

theorem pairwise_fst_lt_enumFrom {α : Type} (l : List α) :
    ∀ n : ℕ, List.Pairwise (fun a b => a.1 < b.1) (l.enumFrom n) := by
  induction l with
  | nil => intro n; simp
  | cons x xs ih =>
    intro n
    rw [List.enumFrom_cons]
    refine List.Pairwise.cons ?_ (ih (n + 1))
    intro b hb
    exact Nat.lt_of_succ_le (le_fst_of_mem_enumFrom xs (n + 1) b hb)

theorem insertDesc_eq_append {α : Type} (key : α → ℚ) (x : α)
    (acc : List α) (h : ∀ y ∈ acc, key x ≤ key y) :
    insertDesc key x acc = acc ++ [x] := by
  induction acc with
  | nil => rfl
  | cons y ys ih =>
    have hy := h y (List.mem_cons_self _ _)
    simp only [insertDesc, if_pos hy, List.cons_append]
    rw [ih (fun z hz => h z (List.mem_cons_of_mem _ hz))]

theorem sortDescBy_sorted_fix_aux {α : Type} (key : α → ℚ) :
    ∀ (l acc : List α),
      List.Pairwise (fun a b => key b ≤ key a) l →
      (∀ x ∈ l, ∀ y ∈ acc, key x ≤ key y) →
      l.foldl (fun a x => insertDesc key x a) acc = acc ++ l := by
  intro l
  induction l with
  | nil => intro acc _ _; simp
  | cons x xs ih =>
    intro acc hp hcross
    simp only [List.foldl_cons]
    rw [insertDesc_eq_append key x acc
      (hcross x (List.mem_cons_self _ _))]
    rw [ih (acc ++ [x]) (List.pairwise_cons.1 hp).2 ?_]
    · simp
    · intro z hz y hy
      rcases List.mem_append.1 hy with hy | hy
      · exact hcross z (List.mem_cons_of_mem _ hz) y hy
      · simp only [List.mem_singleton] at hy
        subst hy
        exact (List.pairwise_cons.1 hp).1 z hz

theorem sortDescBy_sorted_fix {α : Type} (key : α → ℚ) (l : List α)
    (h : List.Pairwise (fun a b => key b ≤ key a) l) :
    sortDescBy key l = l := by
  simpa [sortDescBy] using
    sortDescBy_sorted_fix_aux key l [] h (by simp)

theorem pairwise_scores_single (k : ℚ) (hk : 0 < k) (L : List DocResult) :
    List.Pairwise (fun a b => b.rrf_score ≤ a.rrf_score)
      (((L.enumFrom 1).map (rrfSingle k)).map (·.2)) := by
  rw [List.map_map]
  refine List.Pairwise.map _ ?_ (pairwise_fst_lt_enumFrom L 1)
  intro a b hab
  have ha : (0 : ℚ) < k + a.1 :=
    add_pos_of_pos_of_nonneg hk (by positivity)
  have hle : k + (a.1 : ℚ) ≤ k + b.1 := by
    have : (a.1 : ℚ) ≤ b.1 := by exact_mod_cast le_of_lt hab
    linarith
  have := one_div_le_one_div_of_le ha hle
  simp only [Function.comp, rrfSingle]
  exact this

theorem pairwise_scores_doubled (k : ℚ) (hk : 0 < k)
    (L : List DocResult) :
    List.Pairwise (fun a b => b.rrf_score ≤ a.rrf_score)
      (((L.enumFrom 1).map (rrfDoubled k)).map (·.2)) := by
  rw [List.map_map]
  refine List.Pairwise.map _ ?_ (pairwise_fst_lt_enumFrom L 1)
  intro a b hab
  have ha : (0 : ℚ) < k + a.1 :=
    add_pos_of_pos_of_nonneg hk (by positivity)
  have hle : k + (a.1 : ℚ) ≤ k + b.1 := by
    have : (a.1 : ℚ) ≤ b.1 := by exact_mod_cast le_of_lt hab
    linarith
  have := one_div_le_one_div_of_le ha hle
  simp only [Function.comp, rrfDoubled]
  linarith

/-- C3: fusing a ranked list (distinct ids) with an identical copy of
itself keeps the documents in their original order, and each fused
score is exactly twice the score obtained when fusing the list against
an empty list (2/(k+rank) versus 1/(k+rank), ranks 1-based). -/
theorem rrf_self_fusion (k : ℚ) (hk : 0 < k) (L : List DocResult)
    (hnd : (L.map (·.id)).Nodup) :
    ((RAGEngine.reciprocal_rank_fusion k L L).map
        (fun c => c.res.id) = L.map (·.id)) ∧
    ((RAGEngine.reciprocal_rank_fusion k L L).map
        (fun c => (c.res.id, c.res.score)) =
      (RAGEngine.reciprocal_rank_fusion k L []).map
        (fun c => (c.res.id, 2 * c.res.score))) := by
  have hnd' : ((L.enumFrom 1).map (fun ri => ri.2.id)).Nodup := by
    rw [enumFrom_map_id]; exact hnd
  have e1 : rrfLoop1 k (L.enumFrom 1) [] =
      (L.enumFrom 1).map (rrfSingle k) := by
    simpa using rrfLoop1_eq k (L.enumFrom 1) [] (by simp [dkeys]) hnd'
  have e2 : rrfLoop2 k (L.enumFrom 1)
      ((L.enumFrom 1).map (rrfSingle k)) =
      (L.enumFrom 1).map (rrfDoubled k) := by
    simpa using rrfLoop2_eq k (L.enumFrom 1) [] (by simp [dkeys]) hnd'
  have eLL : RAGEngine.reciprocal_rank_fusion k L L =
      (((L.enumFrom 1).map (rrfDoubled k)).map (·.2)).map (fun c =>
        { c with res := { c.res with score := c.rrf_score } }) := by
    unfold RAGEngine.reciprocal_rank_fusion
    rw [e1, e2,
      sortDescBy_sorted_fix _ _ (pairwise_scores_doubled k hk L)]
  have eL0 : RAGEngine.reciprocal_rank_fusion k L [] =
      (((L.enumFrom 1).map (rrfSingle k)).map (·.2)).map (fun c =>
        { c with res := { c.res with score := c.rrf_score } }) := by
    unfold RAGEngine.reciprocal_rank_fusion
    have h2 : rrfLoop2 k (([] : List DocResult).enumFrom 1)
        ((L.enumFrom 1).map (rrfSingle k)) =
        (L.enumFrom 1).map (rrfSingle k) := rfl
    rw [e1, h2,
      sortDescBy_sorted_fix _ _ (pairwise_scores_single k hk L)]
  constructor
  · rw [eLL]
    simp only [List.map_map]
    refine Eq.trans (List.map_congr_left fun ri _ => rfl)
      (enumFrom_map_id L 1)
  · rw [eLL, eL0]
    simp only [List.map_map]
    apply List.map_congr_left
    intro ri _
    show ((ri.2.id : String), (1 : ℚ) / (k + (ri.1 : ℚ)) +
        1 / (k + (ri.1 : ℚ))) =
      (ri.2.id, 2 * ((1 : ℚ) / (k + (ri.1 : ℚ))))
    refine Prod.ext rfl ?_
    show (1 : ℚ) / (k + (ri.1 : ℚ)) + 1 / (k + (ri.1 : ℚ)) =
      2 * (1 / (k + (ri.1 : ℚ)))
    ring

/-- Ranked list used by the C3 witness. -/
def c3L : List DocResult :=
  [{ id := "a", content := "ca", score := 5, search_type := "bm25",
     chunk_index := 0, page_number := none, document_id := "",
     filename := some "fa", original_name := some "oa" },
   { id := "b", content := "cb", score := 3, search_type := "bm25",
     chunk_index := 1, page_number := none, document_id := "",
     filename := some "fb", original_name := some "ob" }]

/-- Witness for C3: a concrete two-element ranked list fused with
itself at `k = 60`. -/
theorem rrf_self_fusion_witness :
    ((RAGEngine.reciprocal_rank_fusion 60 c3L c3L).map
        (fun c => c.res.id) = c3L.map (·.id)) ∧
    ((RAGEngine.reciprocal_rank_fusion 60 c3L c3L).map
        (fun c => (c.res.id, c.res.score)) =
      (RAGEngine.reciprocal_rank_fusion 60 c3L []).map
        (fun c => (c.res.id, 2 * c.res.score))) :=
  rrf_self_fusion 60 (by norm_num) c3L (by decide)

-- ──────────────────────────── Claim C6 ─────────────────────────────────

theorem snd_mem_of_mem_enumFrom {α : Type} (l : List α) :
    ∀ (n : ℕ) (p : ℕ × α), p ∈ l.enumFrom n → p.2 ∈ l := by
  induction l with
  | nil => intro n p h; simp at h
  | cons x xs ih =>
    intro n p h
    rw [List.enumFrom_cons] at h
    rcases List.mem_cons.1 h with h | h
    · rw [h]; exact List.mem_cons_self _ _
    · exact List.mem_cons_of_mem _ (ih (n + 1) p h)

theorem postProcess_indices (cfg : ChunkCfg) (l : List Chunk) :
    (postProcess cfg l).map (·.chunk_index) =
      List.range (postProcess cfg l).length := by
  unfold postProcess
  rw [List.map_map]
  have h1 : ((fun c : Chunk => c.chunk_index) ∘ fun ic : ℕ × Chunk =>
      { ic.2 with chunk_index := ic.1 }) = Prod.fst := rfl
  rw [h1, List.enum_map_fst, List.length_map, List.enum_length]

theorem postProcess_min (cfg : ChunkCfg) (l : List Chunk) :
    ∀ c ∈ postProcess cfg l,
      cfg.min_chunk_size ≤ ((pyStrip c.content).length : ℤ) := by
  intro c hc
  unfold postProcess at hc
  rcases List.mem_map.1 hc with ⟨ic, hic, rfl⟩
  have h2 : ic.2 ∈ l.filter
      (fun c => decide (cfg.min_chunk_size ≤
        ((pyStrip c.content).length : ℤ))) :=
    snd_mem_of_mem_enumFrom _ 0 ic hic
  have h3 := List.of_mem_filter h2
  exact of_decide_eq_true h3

/-- C6: for every text, page count and strategy, whenever `chunk_text`
terminates its output's `chunk_index` values are exactly `0..N-1` in
order, and every chunk's stripped content has length at least
`min_chunk_size`. -/
theorem chunk_text_indices_and_min (cfg : ChunkCfg) (textS : String)
    (page_count : ℤ) (strategy : String) (L : List Chunk)
    (h : chunk_text cfg textS page_count strategy = some L) :
    L.map (·.chunk_index) = List.range L.length ∧
    ∀ c ∈ L, cfg.min_chunk_size ≤ ((pyStrip c.content).length : ℤ) := by
  unfold chunk_text at h
  by_cases hs : pyStrip textS = ""
  · rw [if_pos hs] at h
    have hL : L = [] := by
      have := Option.some.inj h
      exact this.symm
    subst hL
    exact ⟨by simp, by intro c hc; simp at hc⟩
  · rw [if_neg hs] at h
    rcases Option.map_eq_some'.mp h with ⟨raw, _, hL⟩
    subst hL
    exact ⟨postProcess_indices cfg _, postProcess_min cfg _⟩

/-- Chunker configuration and text for the C6 witness. -/
def c6Cfg : ChunkCfg :=
  { chunk_size := 20, chunk_overlap := 5, min_chunk_size := 3,
    respect_sentences := true }

/-- Witness for C6: a concrete sentence-strategy run. -/
theorem chunk_text_indices_and_min_witness :
    ((chunk_text c6Cfg "Alpha beta. Gamma delta epsilon. Zeta." 1
        "sentence").getD []).map (·.chunk_index) =
      List.range ((chunk_text c6Cfg
        "Alpha beta. Gamma delta epsilon. Zeta." 1
        "sentence").getD []).length ∧
    ∀ c ∈ (chunk_text c6Cfg "Alpha beta. Gamma delta epsilon. Zeta." 1
        "sentence").getD [],
      c6Cfg.min_chunk_size ≤ ((pyStrip c.content).length : ℤ) :=
  chunk_text_indices_and_min c6Cfg
    "Alpha beta. Gamma delta epsilon. Zeta." 1 "sentence" _ (by decide)

-- ──────────────────────────── Claim C10 ────────────────────────────────

theorem fixedStep_advance (cfg : ChunkCfg) (text : List Char)
    (start : ℤ) (n : ℕ) (hcs : 0 < cfg.chunk_size)
    (hov : 2 * cfg.chunk_overlap < cfg.chunk_size) :
    start + 1 ≤ (fixedStep cfg text start n).2 - cfg.chunk_overlap := by
  simp only [fixedStep]
  split
  case isTrue hc =>
    have h3 : 2 * lastPeriod (pySlice text start
        (start + cfg.chunk_size)) > cfg.chunk_size := by
      have h2 := hc.2.2
      have h4 : (2 : ℚ) * (lastPeriod (pySlice text start
          (start + cfg.chunk_size)) : ℚ) > (cfg.chunk_size : ℚ) := by
        linarith
      exact_mod_cast h4
    dsimp only
    omega
  case isFalse hc =>
    dsimp only
    omega

theorem fixedGo_isSome (cfg : ChunkCfg) (text : List Char)
    (hcs : 0 < cfg.chunk_size)
    (hov : 2 * cfg.chunk_overlap < cfg.chunk_size) :
    ∀ (fuel : ℕ) (start : ℤ) (chunks : List Chunk), 0 < fuel →
      (text.length : ℤ) - start < fuel →
      (fixedGo cfg text fuel start chunks).isSome := by
  intro fuel
  induction fuel with
  | zero => intro start chunks h0 _; omega
  | succ fuel ih =>
    intro start chunks _ hlt
    by_cases hin : start < (text.length : ℤ)
    · have hadv := fixedStep_advance cfg text start chunks.length hcs hov
      rw [show fixedGo cfg text (fuel + 1) start chunks =
          (if start < (text.length : ℤ) then
            (if (fixedStep cfg text start chunks.length).2 -
                cfg.chunk_overlap ≥ (text.length : ℤ) then
              some (chunks ++ [(fixedStep cfg text start chunks.length).1])
            else
              fixedGo cfg text fuel
                ((fixedStep cfg text start chunks.length).2 -
                  cfg.chunk_overlap)
                (chunks ++ [(fixedStep cfg text start chunks.length).1]))
          else some chunks) from rfl]
      rw [if_pos hin]
      by_cases hout : (fixedStep cfg text start chunks.length).2 -
          cfg.chunk_overlap ≥ (text.length : ℤ)
      · rw [if_pos hout]; rfl
      · rw [if_neg hout]
        refine ih _ _ ?_ ?_
        · omega
        · omega
    · rw [show fixedGo cfg text (fuel + 1) start chunks =
          (if start < (text.length : ℤ) then
            (if (fixedStep cfg text start chunks.length).2 -
                cfg.chunk_overlap ≥ (text.length : ℤ) then
              some (chunks ++ [(fixedStep cfg text start chunks.length).1])
            else
              fixedGo cfg text fuel
                ((fixedStep cfg text start chunks.length).2 -
                  cfg.chunk_overlap)
                (chunks ++ [(fixedStep cfg text start chunks.length).1]))
          else some chunks) from rfl]
      rw [if_neg hin]
      rfl

/-- C10: when `chunk_overlap < chunk_size/2` and `chunk_size > 0`, the
fixed-size chunking loop terminates: each iteration advances the window
start by at least one character, so the fuel `len(text) + 1` always
suffices. -/
theorem chunk_fixed_terminates (cfg : ChunkCfg) (textS : String)
    (hcs : 0 < cfg.chunk_size)
    (hov : 2 * cfg.chunk_overlap < cfg.chunk_size) :
    (chunk_fixed cfg textS).isSome := by
  unfold chunk_fixed
  exact fixedGo_isSome cfg textS.data hcs hov (textS.data.length + 1) 0
    [] (by omega) (by push_cast; omega)

/-- Witness for C10: a concrete fixed-size run with
`chunk_size = 10 > 2 * 3 = 2 * chunk_overlap`. -/
theorem chunk_fixed_terminates_witness :
    (chunk_fixed
      { chunk_size := 10, chunk_overlap := 3, min_chunk_size := 2,
        respect_sentences := true }
      "Alpha beta. Gamma delta epsilon. Zeta.").isSome :=
  chunk_fixed_terminates _ _ (by decide) (by decide)

-- ──────────────────────────── Claim C7 ─────────────────────────────────

/-- The counterexample text for C7: two sentences separated by a blank
line.  The paragraph strategy joins paragraphs with a blank line while
the sentence strategy joins sentences with a single space, so the two
strategies differ here. -/
def c7Text : String :=
  ⟨List.replicate 60 'a' ++ '.' :: '\n' :: '\n' ::
    (List.replicate 60 'b' ++ ['.'])⟩

set_option maxRecDepth 4000 in
/-- C7 counterexample: with the default configuration, calling the
chunking operation without a strategy (source default "sentence") does
not produce the paragraph-strategy output, refuting the claim that the
default applies the paragraph strategy. -/
theorem chunk_text_default_not_paragraph :
    chunk_text_default {} c7Text 1 ≠ chunk_text {} c7Text 1 "paragraph" := by
  decide

/-- The amended claim's sentence grouping, following §4.1 *sentence*:
greedily group consecutive sentences (joined by single spaces) until
adding the next would exceed `chunk_size`, then emit the group and
carry a trailing subset of sentences of combined length within
`chunk_overlap` (the `overlapGo` selection) into the next group. -/
def specSentenceGroups (cfg : ChunkCfg) :
    List String → List String → ℤ → List String
  | [], parts, _ => if parts.isEmpty then [] else [joinSp parts]
  | s :: rest, parts, clen =>
    if clen + (s.length : ℤ) > cfg.chunk_size ∧ parts ≠ [] then
      joinSp parts ::
        (let ol := overlapGo cfg.chunk_overlap parts.reverse [] 0
         specSentenceGroups cfg rest (ol.1 ++ [s])
           (ol.2 + s.length + 1))
    else specSentenceGroups cfg rest (parts ++ [s])
      (clen + s.length + 1)

theorem sentLoop_contents (cfg : ChunkCfg) (text : List Char) :
    ∀ (sentences : List String) (chunks : List Chunk)
      (parts : List String) (clen off : ℤ),
      (sentFlush text
        (sentLoop cfg text sentences chunks parts clen off)).map
          (·.content) =
      chunks.map (·.content) ++ specSentenceGroups cfg sentences parts clen := by
  intro sentences
  induction sentences with
  | nil =>
    intro chunks parts clen off
    by_cases hp : parts = []
    · subst hp
      simp [sentLoop, sentFlush, specSentenceGroups]
    · simp [sentLoop, sentFlush, specSentenceGroups, hp,
        List.isEmpty_iff]
  | cons s rest ih =>
    intro chunks parts clen off
    by_cases hc : clen + (s.length : ℤ) > cfg.chunk_size ∧ parts ≠ []
    · have step : sentLoop cfg text (s :: rest) chunks parts clen off =
          sentLoop cfg text rest
            (chunks ++ [{
              content := joinSp parts,
              chunk_index := chunks.length,
              start_char := (if pyFind text (parts.headD "").data off
                  = -1 then off
                else pyFind text (parts.headD "").data off),
              end_char := (if pyFind text (parts.headD "").data off
                  = -1 then off
                else pyFind text (parts.headD "").data off) +
                  (joinSp parts).length }])
            ((overlapGo cfg.chunk_overlap parts.reverse [] 0).1 ++ [s])
            ((overlapGo cfg.chunk_overlap parts.reverse [] 0).2 +
              s.length + 1)
            ((if pyFind text (parts.headD "").data off = -1 then off
              else pyFind text (parts.headD "").data off) +
              (joinSp parts).length -
              (overlapGo cfg.chunk_overlap parts.reverse [] 0).2) := by
        rw [sentLoop]
        rw [if_pos hc]
      rw [step, ih]
      rw [specSentenceGroups, if_pos hc]
      simp
    · have step : sentLoop cfg text (s :: rest) chunks parts clen off =
          sentLoop cfg text rest chunks (parts ++ [s])
            (clen + s.length + 1) off := by
        rw [sentLoop, if_neg hc]
      rw [step, ih]
      rw [specSentenceGroups, if_neg hc]

theorem map_filter_content (cfg : ChunkCfg) (l : List Chunk) :
    (l.filter (fun c => decide (cfg.min_chunk_size ≤
        ((pyStrip c.content).length : ℤ)))).map (·.content) =
      (l.map (·.content)).filter
        (fun s => decide (cfg.min_chunk_size ≤
          ((pyStrip s).length : ℤ))) := by
  induction l with
  | nil => rfl
  | cons c rest ih =>
    by_cases h : cfg.min_chunk_size ≤ ((pyStrip c.content).length : ℤ)
    · simp [List.filter_cons, h, ih]
    · simp [List.filter_cons, h, ih]

theorem assignPages_contents (chunks : List Chunk) (ft : List Char)
    (pc : ℤ) :
    (assign_page_numbers chunks ft pc).map (·.content) =
      chunks.map (·.content) := by
  simp only [assign_page_numbers]
  split
  · rw [List.map_map]
    exact List.map_congr_left fun c _ => rfl
  · rw [List.map_map]
    exact List.map_congr_left fun c _ => rfl

theorem postProcess_contents (cfg : ChunkCfg) (l : List Chunk) :
    (postProcess cfg l).map (·.content) =
      (l.map (·.content)).filter
        (fun s => decide (cfg.min_chunk_size ≤ ((pyStrip s).length : ℤ))) := by
  unfold postProcess
  rw [List.map_map]
  have h1 : ((fun c : Chunk => c.content) ∘ fun ic : ℕ × Chunk =>
      { ic.2 with chunk_index := ic.1 }) =
      (fun c : Chunk => c.content) ∘ Prod.snd := rfl
  rw [h1, ← List.map_map, List.enum_map_snd, map_filter_content]

set_option maxHeartbeats 1000000 in
/-- C7 amended: calling the chunking operation without specifying a
strategy applies the *sentence* strategy (the source default), not the
paragraph strategy: the produced chunk contents are exactly the greedy
sentence groups (with overlap carry) of the stripped text, after the
minimum-size filter. -/
theorem chunk_text_default_is_sentence (cfg : ChunkCfg) (textS : String)
    (page_count : ℤ) (L : List Chunk)
    (h : chunk_text_default cfg textS page_count = some L) :
    L.map (·.content) =
      (specSentenceGroups cfg (split_sentences (pyStrip textS)) [] 0).filter
        (fun s => decide (cfg.min_chunk_size ≤ ((pyStrip s).length : ℤ))) := by
  by_cases hs : pyStrip textS = ""
  · have key0 : chunk_text_default cfg textS page_count = some [] := by
      unfold chunk_text_default chunk_text
      rw [if_pos hs]
    rw [key0] at h
    have hL : L = [] := (Option.some.inj h).symm
    subst hL
    rw [hs]
    have hss : split_sentences "" = [] := by decide
    rw [hss]
    rfl
  · have key : chunk_text_default cfg textS page_count =
        some (postProcess cfg
          (if page_count > 1 then
            assign_page_numbers (chunk_by_sentences cfg (pyStrip textS))
              (pyStrip textS).data page_count
          else chunk_by_sentences cfg (pyStrip textS))) := by
      unfold chunk_text_default chunk_text
      rw [if_neg hs]
      rfl
    rw [key] at h
    have hL : L = postProcess cfg
        (if page_count > 1 then
          assign_page_numbers (chunk_by_sentences cfg (pyStrip textS))
            (pyStrip textS).data page_count
        else chunk_by_sentences cfg (pyStrip textS)) :=
      (Option.some.inj h).symm
    subst hL
    rw [postProcess_contents]
    have hsent : (chunk_by_sentences cfg (pyStrip textS)).map (·.content) =
        specSentenceGroups cfg (split_sentences (pyStrip textS)) [] 0 := by
      have h2 := sentLoop_contents cfg (pyStrip textS).data
        (split_sentences (pyStrip textS)) [] [] 0 0
      simp only [List.map_nil, List.nil_append] at h2
      exact h2
    have main : (if page_count > 1 then
          assign_page_numbers (chunk_by_sentences cfg (pyStrip textS))
            (pyStrip textS).data page_count
        else chunk_by_sentences cfg (pyStrip textS)).map (·.content) =
        specSentenceGroups cfg (split_sentences (pyStrip textS)) [] 0 := by
      by_cases hp : page_count > 1
      · rw [if_pos hp, assignPages_contents, hsent]
      · rw [if_neg hp, hsent]
    rw [main]

set_option maxRecDepth 4000 in
/-- Witness for C7's amended claim on the counterexample text. -/
theorem chunk_text_default_is_sentence_witness :
    ((chunk_text_default {} c7Text 1).getD []).map (·.content) =
      (specSentenceGroups {} (split_sentences (pyStrip c7Text)) [] 0).filter
        (fun s => decide (({} : ChunkCfg).min_chunk_size ≤
          ((pyStrip s).length : ℤ))) :=
  chunk_text_default_is_sentence {} c7Text 1 _ (by decide)

-- ──────────────────────────── Claim C8 ─────────────────────────────────

/-- The source-attribution format the claim (and §4.4) prescribes:
`filename` first, then `original_name`, then `"unknown"`. -/
def specC8Format (r : DocResult) : String :=
  r.content ++ "\n" ++ ("[Source: " ++
    r.filename.getD (r.original_name.getD "unknown") ++
    (match r.page_number with
     | some p => if p = 0 then "" else ", Page " ++ toString p
     | none => "") ++ "]")

/-- The amended claim's per-result format: the code reads
`original_name` first and falls back to `filename`, then `"unknown"`;
`", Page p"` is appended exactly for a present, truthy page number. -/
def specC8AmendedFormat (r : DocResult) : String :=
  r.content ++ "\n" ++ ("[Source: " ++
    r.original_name.getD (r.filename.getD "unknown") ++
    (match r.page_number with
     | some p => if p = 0 then "" else ", Page " ++ toString p
     | none => "") ++ "]")

/-- A result carrying both a filename and an original name. -/
def c8Result : DocResult :=
  { id := "x1", content := "body", score := 1, search_type := "bm25",
    chunk_index := 0, page_number := none, document_id := "",
    filename := some "file.pdf", original_name := some "orig.pdf" }

/-- C8 counterexample: on a result with both names present the
assembler emits "[Source: orig.pdf]" (original_name first), not the
claim's "[Source: file.pdf]". -/
theorem assemble_prefers_original_name_cex :
    assembleContext [c8Result] ≠ ([specC8Format c8Result],
      [c8Result.id]) := by
  decide

theorem assembleContext_eq (results : List DocResult) :
    assembleContext results =
      (results.map specC8AmendedFormat, results.map (·.id)) := by
  unfold assembleContext
  by_cases h : results.isEmpty
  · have hr : results = [] := List.isEmpty_iff.mp h
    subst hr; simp
  · rw [if_neg h]
    refine Prod.ext ?_ rfl
    exact List.map_congr_left fun r _ => rfl

theorem search_length (lg : ℚ → ℚ) (st : BM25Index) (q : String)
    (lim : ℕ) : (BM25Index.search lg st q lim).length ≤ lim := by
  unfold BM25Index.search
  by_cases h0 : st.doc_count = 0
  · simp [h0]
  by_cases hq : (bm25Tokenize q).isEmpty
  · simp [h0, hq]
  simp only [if_neg h0, hq, Bool.false_eq_true, if_false]
  simp [List.length_take]

theorem bm25_search_length (lg : ℚ → ℚ)
    (expand : String → String → String)
    (dbChunks : List (String × String × Meta)) (st : BM25Index)
    (query subject_id : String) (top_k : ℕ) (expand_query : Bool) :
    (RAGEngine.bm25_search lg expand dbChunks st query subject_id top_k
      expand_query).length ≤ top_k := by
  unfold RAGEngine.bm25_search
  rw [List.length_map]
  exact search_length _ _ _ _

/-- C8 amended: the bm25 path of `get_context_for_query` returns, for
the at-most-`top_k` ranked results of the search, the list of formatted
strings (content, newline, "[Source: original_name-or-filename-or-
unknown, Page p]") together with the parallel id list. -/
theorem get_context_assembles (lg : ℚ → ℚ)
    (expand : String → String → String)
    (dbChunks : List (String × String × Meta)) (sem : ℕ → List DocResult)
    (k : ℚ) (st : BM25Index) (query subject_id : String) (top_k : ℕ) :
    RAGEngine.get_context_for_query lg expand dbChunks sem k st query
        subject_id top_k "bm25" =
      ((RAGEngine.bm25_search lg expand dbChunks st query subject_id
          top_k true).map specC8AmendedFormat,
       (RAGEngine.bm25_search lg expand dbChunks st query subject_id
          top_k true).map (·.id)) ∧
    (RAGEngine.bm25_search lg expand dbChunks st query subject_id top_k
      true).length ≤ top_k := by
  constructor
  · unfold RAGEngine.get_context_for_query
    rw [if_pos rfl]
    exact assembleContext_eq _
  · exact bm25_search_length lg expand dbChunks st query subject_id
      top_k true
